import Mathlib

/-!
Verification of the release-helper core (release state machine, changelog
reconciliation, asset-integrity protocol) against its natural-language
specification.  Python text values are embedded as `List Char`; machine
integers as `Int`/`Nat`; side-effecting phases as explicit event traces;
fallible code as `Except`/`Option`.

Layout: all definitions (shallow embeddings of the source) come first,
followed by helper lemmas, followed by the claim theorems.
-/

namespace ReleaseHelper

/-! ## Definitions -/

/-- `str.splitlines` helper: accumulates the current line (reversed). -/
def splitlinesAux (cur : List Char) : List Char → List (List Char)
  | [] => [cur.reverse]
  | c :: cs =>
    if c = '\n' then
      if cs = [] then [cur.reverse] else cur.reverse :: splitlinesAux [] cs
    else splitlinesAux (c :: cur) cs

/-- Python `str.splitlines` (newline-only model): no trailing empty line for a
trailing newline, and the empty string has no lines. -/
def splitlines (s : List Char) : List (List Char) :=
  if s = [] then [] else splitlinesAux [] s

/-- Python `"\n".join(lines)`. -/
def joinLines : List (List Char) → List Char
  | [] => []
  | l :: ls => if ls = [] then l else l ++ '\n' :: joinLines ls

/-- All positions at which `pat` occurs in `s` (ascending). -/
def occSet (s pat : List Char) : List Nat :=
  (List.range (s.length + 1)).filter (fun i => decide (pat <+: s.drop i))

/-- Number of occurrences of `pat` in `s` (all start positions counted). -/
def countSub (s pat : List Char) : Nat :=
  (occSet s pat).length

/-- Python `str.find`: index of the first occurrence (`none` for `-1`). -/
def pyFind (s pat : List Char) : Option Nat :=
  (occSet s pat).head?

/-- Python `str.rfind`: index of the last occurrence (`none` for `-1`). -/
def pyRFind (s pat : List Char) : Option Nat :=
  (occSet s pat).getLast?

/-- Fuel-driven core of `pyReplace`; each step consumes at least one
character, so `fuel = s.length` suffices. -/
def pyReplaceAux (old new : List Char) : Nat → List Char → List Char
  | 0, s => s
  | _ + 1, [] => []
  | fuel + 1, c :: t =>
    if old ≠ [] ∧ old <+: (c :: t) then
      new ++ pyReplaceAux old new fuel ((c :: t).drop old.length)
    else
      c :: pyReplaceAux old new fuel t

/-- Python `str.replace`: replace every non-overlapping occurrence of `old`,
scanning left to right.  (All uses in the source have `old` nonempty.) -/
def pyReplace (s old new : List Char) : List Char :=
  pyReplaceAux old new s.length s

/-- Python slice `s[a:b]` for `0 ≤ a ≤ b`. -/
def pySlice (s : List Char) (a b : Nat) : List Char :=
  (s.take b).drop a

/-- Python `pathlib.PurePath(path).suffix`. -/
def pySuffix (path : List Char) : List Char :=
  let name := (path.reverse.takeWhile (fun c => c ≠ '/')).reverse
  let revTail := name.reverse.takeWhile (fun c => c ≠ '.')
  if revTail.length = name.length then []
  else
    let i := name.length - 1 - revTail.length
    if 0 < i ∧ i < name.length - 1 then name.drop i else []

/-- A JSON scalar as surfaced by the release-host client: Python's dynamic
typing makes `bool == str` comparisons well-formed but always false. -/
inductive JVal where
  | b (v : Bool)
  | s (v : List Char)
deriving DecidableEq

/-- A release object as listed by the host. `createdAt`/`now` are in seconds. -/
structure HostRelease where
  id : Nat
  draft : JVal
  createdAt : Int
deriving DecidableEq

/-- The pruning loop of `draft_release`:
`if release.draft == "false": continue`, then
`delta = d_created - datetime.utcnow()`, `if delta.days > 0: delete`.
`timedelta.days` is the floor of the total duration in days.
Returns the ids of the releases that get deleted. -/
def draft_release_prune (releases : List HostRelease) (now : Int) : List Nat :=
  releases.filterMap fun r =>
    if r.draft = JVal.s ('f' :: 'a' :: 'l' :: 's' :: 'e' :: []) then none
    else if (r.createdAt - now).fdiv 86400 > 0 then some r.id else none

/-- External actions performed by `publish_release`, in order. -/
inductive PublishAction where
  | twine (name : List Char)
  | npmPublish (name : List Char)
  | finalize
deriving DecidableEq

/-- The message of the `ValueError` raised when nothing was published. -/
def noAssetsMsg : List Char :=
  "No assets published, refusing to finalize release".toList

/-- `publish_release` over the dist-dir file listing: runs the matching
publisher per recognized suffix, raises if nothing was published, and only
then takes the release out of draft (`finalize`).  Returns the action trace
and the fatal error, if any. -/
def publish_release (files : List (List Char)) :
    List PublishAction × Option (List Char) :=
  let step := fun (p : List PublishAction × Bool) (path : List Char) =>
    let name := (path.reverse.takeWhile (fun c => c ≠ '/')).reverse
    let suf := pySuffix path
    if suf = ".gz".toList ∨ suf = ".whl".toList then
      (p.1 ++ [PublishAction.twine name], true)
    else if suf = ".tgz".toList then
      (p.1 ++ [PublishAction.npmPublish name], true)
    else p
  let r := files.foldl step ([], false)
  if r.2 then (r.1 ++ [PublishAction.finalize], none)
  else (r.1, some noAssetsMsg)

/-- Observable events of the prep phase, in execution order. -/
inductive PrepEvent where
  | clearDist
  | setupGit
  | bump
  | fail (msg : List Char)
  | emitOutputs (version : List Char)
deriving DecidableEq

/-- Message of the tag-collision error in `prep_env`. -/
def tagExistsMsg (tagName : List Char) : List Char :=
  "Tag ".toList ++ tagName ++ " already exists!".toList ++
    " To delete run: `git push --delete upstream \x7btag_name\x7d`".toList

/-- Message of the canonicality error in `prep_env`. -/
def invalidVersionMsg (version : List Char) : List Char :=
  "Invalid version ".toList ++ version

/-- `prep_env`, as the ordered trace of its side effects.  `bumpedVersion` is
the version read back from disk after the external bump tool ran,
`setupPyExists`/`canonical` model the canonicality guard, and `tags` is the
output of `git --no-pager tag` split into lines.  The source clears the dist
directory, sets up git, runs the version bump, validates the version, and
only then checks whether tag `v{version}` already exists. -/
def prep_env (bumpedVersion : List Char) (setupPyExists : Bool)
    (canonical : List Char → Bool) (tags : List (List Char)) : List PrepEvent :=
  let version := bumpedVersion
  let tagName := 'v' :: version
  [PrepEvent.clearDist, PrepEvent.setupGit, PrepEvent.bump] ++
    (if setupPyExists ∧ ¬ canonical version then
      [PrepEvent.fail (invalidVersionMsg version)]
    else if tagName ∈ tags then
      [PrepEvent.fail (tagExistsMsg tagName)]
    else
      [PrepEvent.emitOutputs version])

/-- Some event of the trace is a version bump that happens strictly before
some fatal failure. -/
def bumpBeforeFail (t : List PrepEvent) : Prop :=
  ∃ i j, i < j ∧ t.get? i = some PrepEvent.bump ∧
    ∃ m, t.get? j = some (PrepEvent.fail m)

/-- Greedy match of `[0-9]+` with nothing after it in the pattern: takes the
maximal digit run, failing on an empty run. -/
def matchD (s : List Char) : Option (List Char) :=
  let r := s.takeWhile Char.isDigit
  if r.isEmpty then none else some r

/-- Match of `.[0-9]+` (`.` is any character but a newline, as in `re`). -/
def matchAD (s : List Char) : Option (List Char) :=
  match s with
  | [] => none
  | c :: rest => if c = '\n' then none else (matchD rest).map (fun m => c :: m)

/-- Greedy backtracking for a leading `[0-9]+`: try taking `j` digits, largest
first, and continue with `next` on the remainder. -/
def tryD (next : List Char → Option (List Char)) (s : List Char) :
    Nat → Option (List Char)
  | 0 => none
  | j + 1 =>
    match next (s.drop (j + 1)) with
    | some m => some (s.take (j + 1) ++ m)
    | none => tryD next s j

/-- Match of `[0-9]+.[0-9]+` anchored at the start. -/
def matchDAD (s : List Char) : Option (List Char) :=
  tryD matchAD s (s.takeWhile Char.isDigit).length

/-- Match of `.[0-9]+.[0-9]+` anchored at the start. -/
def matchADAD (s : List Char) : Option (List Char) :=
  match s with
  | [] => none
  | c :: rest => if c = '\n' then none else (matchDAD rest).map (fun m => c :: m)

/-- `re.match("([0-9]+.[0-9]+.[0-9]+)", s)` with Python's leftmost-greedy
backtracking semantics (the dots are unescaped in the source, so they match
any character except a newline).  Returns the text of group 1. -/
def matchVersionCore (s : List Char) : Option (List Char) :=
  tryD matchADAD s (s.takeWhile Char.isDigit).length

/-- `util.py::is_prerelease`: `none` models the `AttributeError` raised when
the regex does not match at all. -/
def is_prerelease (version : List Char) : Option Bool :=
  (matchVersionCore version).map (fun m => decide (m ≠ version))

/-- Truncation to a 32-bit word. -/
def w32 (n : Nat) : Nat := n % 4294967296

/-- 32-bit right rotation. -/
def rotr (n x : Nat) : Nat := w32 ((x >>> n) ||| (x <<< (32 - n)))

/-- Fuel-driven core of `readChunks`; for `0 < n` each step consumes at least
one element, so `fuel = l.length` suffices. -/
def readChunksAux (n : Nat) : Nat → List α → List (List α)
  | 0, _ => []
  | _ + 1, [] => []
  | fuel + 1, x :: xs => (x :: xs).take n :: readChunksAux n fuel ((x :: xs).drop n)

/-- Split a list into consecutive chunks of `n` elements (the final chunk may
be shorter); the source only uses `n = 65536` and `n = 64`. -/
def readChunks (n : Nat) (l : List α) : List (List α) :=
  readChunksAux n l.length l

/-- Big-endian byte expansion, `k` bytes. -/
def toBytesBE (k n : Nat) : List Nat :=
  (List.range k).map (fun i => (n >>> (8 * (k - 1 - i))) % 256)

/-- SHA-256 padding: append `0x80`, zeros to 56 mod 64, and the bit length
as 8 big-endian bytes. -/
def sha256pad (msg : List Nat) : List Nat :=
  let L := msg.length
  let k := (119 - (L % 64)) % 64
  msg ++ [128] ++ List.replicate k 0 ++ toBytesBE 8 (8 * L)

/-- Pack big-endian 4-byte groups into 32-bit words. -/
def toWords : List Nat → List Nat
  | b0 :: b1 :: b2 :: b3 :: rest =>
    (b0 * 16777216 + b1 * 65536 + b2 * 256 + b3) :: toWords rest
  | _ => []

/-- Extend the 16-word message schedule by `n` further words. -/
def extendW (w : List Nat) : Nat → List Nat
  | 0 => w
  | n + 1 =>
    let prev := extendW w n
    let i := prev.length
    let x15 := prev.getD (i - 15) 0
    let x2 := prev.getD (i - 2) 0
    let s0 := (rotr 7 x15) ^^^ (rotr 18 x15) ^^^ (x15 >>> 3)
    let s1 := (rotr 17 x2) ^^^ (rotr 19 x2) ^^^ (x2 >>> 10)
    prev ++ [w32 (prev.getD (i - 16) 0 + s0 + prev.getD (i - 7) 0 + s1)]

/-- The SHA-256 round constants. -/
def K64 : List Nat :=
  [1116352408, 1899447441, 3049323471, 3921009573, 961987163,
   1508970993, 2453635748, 2870763221, 3624381080, 310598401,
   607225278, 1426881987, 1925078388, 2162078206, 2614888103,
   3248222580, 3835390401, 4022224774, 264347078, 604807628,
   770255983, 1249150122, 1555081692, 1996064986, 2554220882,
   2821834349, 2952996808, 3210313671, 3336571891, 3584528711,
   113926993, 338241895, 666307205, 773529912, 1294757372,
   1396182291, 1695183700, 1986661051, 2177026350, 2456956037,
   2730485921, 2820302411, 3259730800, 3345764771, 3516065817,
   3600352804, 4094571909, 275423344, 430227734, 506948616,
   659060556, 883997877, 958139571, 1322822218, 1537002063,
   1747873779, 1955562222, 2024104815, 2227730452, 2361852424,
   2428436474, 2756734187, 3204031479, 3329325298]

/-- The eight working variables of the compression loop. -/
structure Work8 where
  a : Nat
  b : Nat
  c : Nat
  d : Nat
  e : Nat
  f : Nat
  g : Nat
  hh : Nat
deriving DecidableEq

/-- One SHA-256 compression round. -/
def round1 (wk : Work8) (k w : Nat) : Work8 :=
  let S1 := (rotr 6 wk.e) ^^^ (rotr 11 wk.e) ^^^ (rotr 25 wk.e)
  let ch := (wk.e &&& wk.f) ^^^ ((4294967295 ^^^ wk.e) &&& wk.g)
  let t1 := w32 (wk.hh + S1 + ch + k + w)
  let S0 := (rotr 2 wk.a) ^^^ (rotr 13 wk.a) ^^^ (rotr 22 wk.a)
  let maj := (wk.a &&& wk.b) ^^^ (wk.a &&& wk.c) ^^^ (wk.b &&& wk.c)
  let t2 := w32 (S0 + maj)
  ⟨w32 (t1 + t2), wk.a, wk.b, wk.c, w32 (wk.d + t1), wk.e, wk.f, wk.g⟩

/-- Compress one 64-byte block into the running hash state. -/
def compressBlock (h : Work8) (block : List Nat) : Work8 :=
  let ws := extendW (toWords block) 48
  let fin := (K64.zip ws).foldl (fun wk kw => round1 wk kw.1 kw.2) h
  ⟨w32 (h.a + fin.a), w32 (h.b + fin.b), w32 (h.c + fin.c), w32 (h.d + fin.d),
   w32 (h.e + fin.e), w32 (h.f + fin.f), w32 (h.g + fin.g),
   w32 (h.hh + fin.hh)⟩

/-- The SHA-256 initial hash state. -/
def sha256init : Work8 :=
  ⟨1779033703, 3144134277, 1013904242, 2773480762, 1359893119, 2600822924,
   528734635, 1541459225⟩

/-- SHA-256 of a byte list, as 32 digest bytes. -/
def sha256bytes (msg : List Nat) : List Nat :=
  let fin := (readChunks 64 (sha256pad msg)).foldl compressBlock sha256init
  toBytesBE 4 fin.a ++ toBytesBE 4 fin.b ++ toBytesBE 4 fin.c ++
    toBytesBE 4 fin.d ++ toBytesBE 4 fin.e ++ toBytesBE 4 fin.f ++
    toBytesBE 4 fin.g ++ toBytesBE 4 fin.hh

/-- The lowercase hexadecimal digits. -/
def hexChars : List Char := "0123456789abcdef".toList

/-- Lowercase hex rendering of a byte list (`hexdigest`). -/
def toHexStr (bs : List Nat) : List Char :=
  bs.foldr
    (fun b acc => hexChars.getD (b / 16 % 16) '0' :: hexChars.getD (b % 16) '0' :: acc)
    []

/-- `util.py::compute_sha256`: stream the file bytes through the hash in
`BUF_SIZE = 65536` chunks; `update` concatenates, `hexdigest` renders. -/
def compute_sha256 (bytes : List Nat) : List Char :=
  toHexStr (sha256bytes ((readChunks 65536 bytes).foldl (fun a c => a ++ c) []))

/-- Paragraph join, as `git commit -m a -m b ...` assembles the message. -/
def joinParas : List (List Char) → List Char
  | [] => []
  | p :: ps => if ps = [] then p else p ++ '\n' :: '\n' :: joinParas ps

/-- The release commit message built by `create_release_commit`: a
`Publish {version}` paragraph, a `SHA256 hashes:` paragraph, and one
`{path}: {digest}` paragraph per dist file (the source iterates files in
sorted order; `files` is that listing with each file's bytes). -/
def create_release_commit_message (version : List Char)
    (files : List (List Char × List Nat)) : List Char :=
  joinParas (("Publish ".toList ++ version) :: "SHA256 hashes:".toList ::
    files.map (fun f => f.1 ++ ": ".toList ++ compute_sha256 f.2))

/-- The per-asset scan of `extract_release`: `valid` starts false and becomes
true exactly when a commit-message line contains both the asset name and the
recomputed digest. -/
def asset_checksum_valid (commit_message name sha : List Char) : Bool :=
  (splitlines commit_message).foldl
    (fun valid line =>
      if name <:+: line then (if sha <:+: line then true else valid) else valid)
    false

/-- The verification loop of `extract_release`: each downloaded asset
(`name`, downloaded bytes) must pass the scan, else the single fatal
`Invalid file {name}` error is raised. -/
def extract_release_verify (commit_message : List Char) :
    List (List Char × List Nat) → Except (List Char) Unit
  | [] => Except.ok ()
  | (name, bytes) :: rest =>
    if asset_checksum_valid commit_message name (compute_sha256 bytes) then
      extract_release_verify commit_message rest
    else
      Except.error ("Invalid file ".toList ++ name)

/-- A commit message whose first line mentions `b.tgz` with a wrong digest,
followed by the genuine release-commit paragraphs for `dist/b.tgz`. -/
def tolerantMsg : List Char :=
  "dist/b.tgz: ffff\n".toList ++
    create_release_commit_message "1.0.0".toList [("dist/b.tgz".toList, [98])]

/-- The genuine release-commit message for a single asset `dist/ab.tgz`. -/
def crossNameMsg : List Char :=
  create_release_commit_message "1.0.0".toList [("dist/ab.tgz".toList, [97])]

/-- A commit message with a `dist/a.whl` line carrying a stale digest plus the
genuine paragraph for the same file. -/
def staleLineMsg : List Char :=
  "dist/a.whl: 0bad\n".toList ++
    create_release_commit_message "1.0.0".toList [("dist/a.whl".toList, [97])]

/-- `cli.py::START_MARKER`. -/
def START_MARKER : List Char := "<!-- <START NEW CHANGELOG ENTRY> -->".toList

/-- `cli.py::END_MARKER`. -/
def END_MARKER : List Char := "<!-- <END NEW CHANGELOG ENTRY> -->".toList

/-- The marker validation performed by `prep_changelog` before insertion:
both markers must be present, and the START marker's first and last
occurrence must coincide.  (No check on the END marker's count or on the
relative order of the markers.) -/
def prep_changelog_validate (changelog : List Char) : Except (List Char) Unit :=
  if ¬ (START_MARKER <:+: changelog) ∨ ¬ (END_MARKER <:+: changelog) then
    Except.error "Missing insert marker for changelog".toList
  else if pyFind changelog START_MARKER ≠ pyRFind changelog START_MARKER then
    Except.error "Insert marker appears more than once in changelog".toList
  else Except.ok ()

/-- `re`-style match of `\[#\d+\]` anchored at the head of the list. -/
def prMatchAt : List Char → Option (List Char)
  | '[' :: '#' :: rest =>
    let ds := rest.takeWhile Char.isDigit
    if ds = [] then none
    else if (rest.drop ds.length).head? = some ']' then
      some ('[' :: '#' :: (ds ++ [']']))
    else none
  | _ => none

/-- `re.search(r"\[#\d+\]", line)`: the leftmost PR reference in a line. -/
def firstPRRef : List Char → Option (List Char)
  | [] => none
  | c :: rest =>
    match prMatchAt (c :: rest) with
    | some r => some r
    | none => firstPRRef rest

/-- The inner loop of the same-version merge: a line with a PR reference is
replaced by the *last* old line containing that reference (old lines win);
other lines are kept. -/
def mergeLine (oldLines : List (List Char)) (line : List Char) : List Char :=
  match firstPRRef line with
  | none => line
  | some r => oldLines.foldl (fun acc ol => if r <:+: ol then ol else acc) line

/-- The insertion/merge transform of `prep_changelog` (cli.py lines 552-576),
applied after validation.  `pyFind … |>.getD 0` models `str.index` under the
already-validated presence of both markers. -/
def prep_changelog_update (changelog entry version : List Char) : List Char :=
  let new_entry := START_MARKER ++ '\n' :: '\n' ::
    (entry ++ '\n' :: '\n' :: END_MARKER)
  let start_idx := (pyFind changelog START_MARKER).getD 0
  let end_idx := (pyFind changelog END_MARKER).getD 0
  let prev_entry := pySlice changelog start_idx (end_idx + END_MARKER.length)
  if ('#' :: ' ' :: version) <:+: prev_entry then
    let lines := (splitlines new_entry).map (mergeLine (splitlines prev_entry))
    pyReplace changelog prev_entry (joinLines lines)
  else
    let c1 := pyReplace changelog (END_MARKER ++ '\n' :: '\n' :: []) []
    let c2 := pyReplace c1 (END_MARKER ++ '\n' :: []) []
    pyReplace c2 START_MARKER new_entry

/-- Exactly-one-occurrence, in decomposition form: `pat` occurs at position
`A.length` of `s` and at no other position. -/
def UniqueOcc (s pat A B : List Char) : Prop :=
  s = A ++ pat ++ B ∧ ∀ X Y, s = X ++ pat ++ Y → X = A

/-- A well-formed changelog document: exactly one occurrence of each marker,
with the START marker preceding the END marker. -/
def wellFormedDoc (s : List Char) : Prop :=
  ∃ A B C, s = A ++ START_MARKER ++ B ++ END_MARKER ++ C ∧
    (∀ X Y, s = X ++ START_MARKER ++ Y → X = A) ∧
    (∀ X Y, s = X ++ END_MARKER ++ Y → X = A ++ START_MARKER ++ B)

/-- Concrete two-run merge scenario: the initial changelog, an empty marker
region followed by a trailing newline. -/
def twoRunDoc0 : List Char :=
  START_MARKER ++ '\n' :: '\n' :: END_MARKER ++ ['\n']

/-- The generated entry for version 1.0.0 with two PR lines. -/
def twoRunEntry : List Char := "## 1.0.0\n\n- A [#1]\n- B [#2]".toList

/-- First run: inserts the fresh entry. -/
def twoRunDoc1 : List Char :=
  prep_changelog_update twoRunDoc0 twoRunEntry "1.0.0".toList

/-- The hand edit between the runs: the second PR line is reworded. -/
def twoRunDoc1e : List Char :=
  pyReplace twoRunDoc1 "- B [#2]".toList "- B renamed [#2]".toList

/-- Second run with the same version: the merge branch runs. -/
def twoRunDoc2 : List Char :=
  prep_changelog_update twoRunDoc1e twoRunEntry "1.0.0".toList

/-! ## Helper lemmas -/

/-- The `str.takeWhile`-style prefix of an all-satisfying block stops exactly
at the first failing character. -/
theorem takeWhile_append_stop (px : Char → Bool) (M : List Char) (d : Char)
    (z : List Char) (hM : ∀ c ∈ M, px c = true) (hd : px d = false) :
    (M ++ d :: z).takeWhile px = M := by
  induction M with
  | nil => simp [List.takeWhile, hd]
  | cons a M ih =>
    have ha : px a = true := hM a (List.mem_cons_self a M)
    have hM' : ∀ c ∈ M, px c = true := fun c hc => hM c (List.mem_cons_of_mem a hc)
    simp [List.takeWhile, ha, ih hM']

/-- `takeWhile` keeps an all-satisfying list whole. -/
theorem takeWhile_all (px : Char → Bool) (M : List Char)
    (hM : ∀ c ∈ M, px c = true) : M.takeWhile px = M := by
  induction M with
  | nil => rfl
  | cons a M ih =>
    have ha : px a = true := hM a (List.mem_cons_self a M)
    have hM' : ∀ c ∈ M, px c = true := fun c hc => hM c (List.mem_cons_of_mem a hc)
    simp [List.takeWhile, ha, ih hM']

/-- C1 helper: the first greedy attempt of `tryD` succeeds immediately. -/
theorem tryD_first (next : List Char → Option (List Char)) (s : List Char)
    (j : Nat) (m : List Char) (h : next (s.drop (j + 1)) = some m) :
    tryD next s (j + 1) = some (s.take (j + 1) ++ m) := by
  simp [tryD, h]

/-- `splitlinesAux` on newline-free input yields a single line. -/
theorem splitlinesAux_no_newline (s : List Char) (hnl : '\n' ∉ s) :
    ∀ cur, splitlinesAux cur s = [cur.reverse ++ s] := by
  induction s with
  | nil => intro cur; simp [splitlinesAux]
  | cons c t ih =>
    intro cur
    have hc : ¬ c = '\n' := fun h => hnl (h ▸ List.mem_cons_self c t)
    have ht : '\n' ∉ t := fun h => hnl (List.mem_cons_of_mem c h)
    rw [splitlinesAux, if_neg hc, ih ht (c :: cur)]
    simp

/-- `splitlinesAux` on a newline-free block closed by a newline. -/
theorem splitlinesAux_block (q : List Char) (hnl : '\n' ∉ q) :
    ∀ cur, splitlinesAux cur (q ++ ['\n']) = [cur.reverse ++ q] := by
  induction q with
  | nil => intro cur; simp [splitlinesAux]
  | cons c t ih =>
    intro cur
    have hc : ¬ c = '\n' := fun h => hnl (h ▸ List.mem_cons_self c t)
    have ht : '\n' ∉ t := fun h => hnl (List.mem_cons_of_mem c h)
    rw [List.cons_append, splitlinesAux, if_neg hc, ih ht (c :: cur)]
    simp

/-- Splitting distributes over an inner newline: the lines before it (with
the newline closing the last of them) followed by the lines after it. -/
theorem splitlinesAux_append_newline (xs ys : List Char) :
    ∀ cur, splitlinesAux cur (xs ++ '\n' :: ys) =
      splitlinesAux cur (xs ++ ['\n']) ++ splitlines ys := by
  induction xs with
  | nil =>
    intro cur
    cases ys with
    | nil => simp [splitlinesAux, splitlines]
    | cons y t => simp [splitlinesAux, splitlines]
  | cons x xs ih =>
    intro cur
    by_cases hx : x = '\n'
    · subst hx
      have e1 : splitlinesAux cur (('\n' :: xs) ++ '\n' :: ys) =
          cur.reverse :: splitlinesAux [] (xs ++ '\n' :: ys) := by
        rw [List.cons_append, splitlinesAux, if_pos rfl, if_neg (by simp)]
      have e2 : splitlinesAux cur (('\n' :: xs) ++ ['\n']) =
          cur.reverse :: splitlinesAux [] (xs ++ ['\n']) := by
        rw [List.cons_append, splitlinesAux, if_pos rfl, if_neg (by simp)]
      rw [e1, e2, ih []]
      simp
    · have e1 : splitlinesAux cur ((x :: xs) ++ '\n' :: ys) =
          splitlinesAux (x :: cur) (xs ++ '\n' :: ys) := by
        rw [List.cons_append, splitlinesAux, if_neg hx]
      have e2 : splitlinesAux cur ((x :: xs) ++ ['\n']) =
          splitlinesAux (x :: cur) (xs ++ ['\n']) := by
        rw [List.cons_append, splitlinesAux, if_neg hx]
      rw [e1, e2, ih (x :: cur)]

/-- A newline-free nonempty string is its own single line. -/
theorem splitlines_single (q : List Char) (hnl : '\n' ∉ q) (hq : q ≠ []) :
    splitlines q = [q] := by
  rw [splitlines, if_neg hq, splitlinesAux_no_newline q hnl []]
  rfl

/-- `splitlines` distributes over an inner newline. -/
theorem splitlines_append_newline (xs ys : List Char) :
    splitlines (xs ++ '\n' :: ys) =
      splitlinesAux [] (xs ++ ['\n']) ++ splitlines ys := by
  rw [splitlines, if_neg (by simp), splitlinesAux_append_newline xs ys []]

/-- `joinLines` over a nonempty tail. -/
theorem joinLines_cons_ne (l : List Char) (ls : List (List Char))
    (h : ls ≠ []) : joinLines (l :: ls) = l ++ '\n' :: joinLines ls := by
  rw [joinLines, if_neg h]

/-- `joinLines` distributes over append of nonempty line lists. -/
theorem joinLines_append (xs ys : List (List Char)) (hxs : xs ≠ [])
    (hys : ys ≠ []) :
    joinLines (xs ++ ys) = joinLines xs ++ '\n' :: joinLines ys := by
  induction xs with
  | nil => exact absurd rfl hxs
  | cons x xt ih =>
    cases xt with
    | nil =>
      rw [List.cons_append, List.nil_append, joinLines_cons_ne x ys hys,
        joinLines, if_pos rfl]
    | cons x2 xr =>
      rw [List.cons_append,
        joinLines_cons_ne x ((x2 :: xr) ++ ys) (by simp),
        joinLines_cons_ne x (x2 :: xr) (by simp), ih (by simp)]
      simp

/-- Every newline-free nonempty paragraph reappears as a full line of the
paragraph-joined text. -/
theorem mem_splitlines_joinParas (paras : List (List Char))
    (hall : ∀ r ∈ paras, '\n' ∉ r ∧ r ≠ []) (q : List Char) (hq : q ∈ paras) :
    q ∈ splitlines (joinParas paras) := by
  induction paras with
  | nil => cases hq
  | cons p ps ih =>
    cases ps with
    | nil =>
      have hq2 : q = p := by simpa using hq
      subst hq2
      have hp := hall q (List.mem_cons_self q [])
      rw [joinParas, if_pos rfl, splitlines_single q hp.1 hp.2]
      exact List.mem_cons_self q []
    | cons p2 rest =>
      have hp := hall p (List.mem_cons_self p (p2 :: rest))
      have hall' : ∀ r ∈ p2 :: rest, '\n' ∉ r ∧ r ≠ [] :=
        fun r hr => hall r (List.mem_cons_of_mem p hr)
      have hnonnil : p ++ '\n' :: '\n' :: joinParas (p2 :: rest) ≠ [] := by
        cases p <;> simp
      have hsplit : splitlines (p ++ '\n' :: '\n' :: joinParas (p2 :: rest)) =
          p :: [] :: splitlines (joinParas (p2 :: rest)) := by
        rw [splitlines, if_neg hnonnil,
          splitlinesAux_append_newline p ('\n' :: joinParas (p2 :: rest)) [],
          splitlinesAux_block p hp.1 []]
        have h2 : splitlines ('\n' :: joinParas (p2 :: rest)) =
            [] :: splitlines (joinParas (p2 :: rest)) := by
          rw [splitlines, if_neg (by simp),
            show ('\n' :: joinParas (p2 :: rest)) =
              ([] ++ '\n' :: joinParas (p2 :: rest)) from rfl,
            splitlinesAux_append_newline [] (joinParas (p2 :: rest)) []]
          simp [splitlinesAux]
        rw [h2]
        simp
      rw [joinParas, if_neg (by simp), hsplit]
      rcases List.mem_cons.mp hq with hq1 | hq1
      · subst hq1; exact List.mem_cons_self q _
      · exact List.mem_cons_of_mem _ (List.mem_cons_of_mem _ (ih hall' hq1))

/-- Every produced line is an infix of the processed text. -/
theorem lines_infix (s : List Char) :
    ∀ cur ℓ, ℓ ∈ splitlinesAux cur s → ℓ <:+: cur.reverse ++ s := by
  induction s with
  | nil =>
    intro cur ℓ hℓ
    rw [splitlinesAux] at hℓ
    have h2 : ℓ = cur.reverse := by simpa using hℓ
    exact ⟨[], [], by simp [h2]⟩
  | cons c t ih =>
    intro cur ℓ hℓ
    by_cases hc : c = '\n'
    · subst hc
      rw [splitlinesAux, if_pos rfl] at hℓ
      by_cases ht : t = []
      · rw [if_pos ht] at hℓ
        have h2 : ℓ = cur.reverse := by simpa using hℓ
        exact ⟨[], '\n' :: t, by simp [h2]⟩
      · rw [if_neg ht] at hℓ
        rcases List.mem_cons.mp hℓ with h2 | h2
        · exact ⟨[], '\n' :: t, by simp [h2]⟩
        · have h3 := ih [] ℓ h2
          rw [List.reverse_nil, List.nil_append] at h3
          obtain ⟨u, v, huv⟩ := h3
          exact ⟨cur.reverse ++ '\n' :: u, v, by rw [← huv]; simp⟩
    · rw [splitlinesAux, if_neg hc] at hℓ
      have h3 := ih (c :: cur) ℓ hℓ
      rw [List.reverse_cons] at h3
      obtain ⟨u, v, huv⟩ := h3
      exact ⟨u, v, by rw [huv]; simp⟩

/-- `splitlinesAux` always yields at least one line. -/
theorem splitlinesAux_ne_nil (s : List Char) :
    ∀ cur, splitlinesAux cur s ≠ [] := by
  induction s with
  | nil => intro cur; rw [splitlinesAux]; simp
  | cons c t ih =>
    intro cur
    by_cases hc : c = '\n'
    · subst hc
      rw [splitlinesAux, if_pos rfl]
      by_cases ht : t = []
      · rw [if_pos ht]; simp
      · rw [if_neg ht]; simp
    · rw [splitlinesAux, if_neg hc]
      exact ih (c :: cur)

/-- Folding line-joins equals joining with a seed appended. -/
theorem foldr_join (A2 : List Char) (xs : List (List Char)) (hxs : xs ≠ []) :
    xs.foldr (fun s acc => s ++ '\n' :: acc) A2 = joinLines xs ++ '\n' :: A2 := by
  induction xs with
  | nil => exact absurd rfl hxs
  | cons x xt ih =>
    cases xt with
    | nil =>
      rw [List.foldr_cons, List.foldr_nil, joinLines, if_pos rfl]
    | cons x2 xr =>
      rw [List.foldr_cons, ih (by simp), joinLines_cons_ne x (x2 :: xr) (by simp)]
      simp

/-- Membership in `occSet` characterizes occurrences. -/
theorem mem_occSet (s pat : List Char) (i : Nat) :
    i ∈ occSet s pat ↔ i ≤ s.length ∧ pat <+: s.drop i := by
  unfold occSet
  rw [List.mem_filter, List.mem_range]
  constructor
  · rintro ⟨h1, h2⟩
    exact ⟨by omega, of_decide_eq_true h2⟩
  · rintro ⟨h1, h2⟩
    exact ⟨by omega, decide_eq_true h2⟩

/-- `occSet` never repeats a position. -/
theorem occSet_nodup (s pat : List Char) : (occSet s pat).Nodup :=
  (List.nodup_range _).filter _

/-- A nonempty duplicate-free list whose members all equal `a` is `[a]`. -/
theorem nodup_all_eq {l : List Nat} {a : Nat} (hn : l.Nodup) (ha : a ∈ l)
    (hall : ∀ x ∈ l, x = a) : l = [a] := by
  cases l with
  | nil => cases ha
  | cons x t =>
    have hx : x = a := hall x (List.mem_cons_self x t)
    subst hx
    have ht : t = [] := by
      cases t with
      | nil => rfl
      | cons y u =>
        have hy : y = x := hall y (List.mem_cons_of_mem x (List.mem_cons_self y u))
        rw [List.nodup_cons] at hn
        exact absurd (hy ▸ List.mem_cons_self y u) hn.1
    rw [ht]

/-- An occurrence as a decomposition equation. -/
theorem occ_of_mem (s pat : List Char) (i : Nat) (h : i ∈ occSet s pat) :
    s = s.take i ++ pat ++ s.drop (i + pat.length) := by
  obtain ⟨hle, hpre⟩ := (mem_occSet s pat i).mp h
  obtain ⟨Y, hY⟩ := hpre
  calc s = s.take i ++ s.drop i := (List.take_append_drop i s).symm
    _ = s.take i ++ (pat ++ Y) := by rw [hY]
    _ = s.take i ++ pat ++ s.drop (i + pat.length) := by
        rw [List.append_assoc]
        congr 2
        have h3 := congrArg (List.drop pat.length) hY
        rw [List.drop_left, List.drop_drop] at h3
        rw [h3, Nat.add_comm]

/-- A unique occurrence pins `occSet` to a singleton. -/
theorem occSet_of_uniqueOcc (s pat A B : List Char) (h : UniqueOcc s pat A B) :
    occSet s pat = [A.length] := by
  obtain ⟨hdec, huniq⟩ := h
  have hmem : A.length ∈ occSet s pat := by
    rw [mem_occSet]
    refine ⟨?_, ?_⟩
    · rw [hdec, List.append_assoc, List.length_append, List.length_append]
      omega
    · rw [hdec, List.append_assoc, List.drop_left]
      exact ⟨B, rfl⟩
  apply nodup_all_eq (occSet_nodup s pat) hmem
  intro i hi
  obtain ⟨hle, hpre⟩ := (mem_occSet s pat i).mp hi
  have hocc := occ_of_mem s pat i hi
  have hXA := huniq (s.take i) (s.drop (i + pat.length)) hocc
  have : (s.take i).length = i := by simp; omega
  rw [hXA] at this
  omega

/-- A pattern is an infix exactly when it has an occurrence position. -/
theorem infix_iff_occSet (s pat : List Char) :
    pat <:+: s ↔ occSet s pat ≠ [] := by
  constructor
  · rintro ⟨u, v, huv⟩
    have hmem : u.length ∈ occSet s pat := by
      rw [mem_occSet]
      refine ⟨?_, ?_⟩
      · rw [← huv, List.append_assoc, List.length_append, List.length_append]
        omega
      · rw [← huv, List.append_assoc, List.drop_left]
        exact ⟨v, rfl⟩
    intro hnil
    rw [hnil] at hmem
    cases hmem
  · intro hne
    cases hocc : occSet s pat with
    | nil => exact absurd hocc hne
    | cons i t =>
      have hi : i ∈ occSet s pat := by rw [hocc]; exact List.mem_cons_self i t
      exact ⟨s.take i, s.drop (i + pat.length), (occ_of_mem s pat i hi).symm⟩

/-- With duplicates excluded, first = last forces a single element. -/
theorem head_eq_getLast_singleton {l : List Nat} (hn : l.Nodup) (hne : l ≠ [])
    (h : l.head? = l.getLast?) : ∃ a, l = [a] := by
  cases l with
  | nil => exact absurd rfl hne
  | cons x t =>
    cases t with
    | nil => exact ⟨x, rfl⟩
    | cons y u =>
      exfalso
      rw [List.head?_cons, List.getLast?_cons_cons] at h
      have hx : x ∈ (y :: u).getLast? := Option.mem_def.mpr h.symm
      obtain ⟨hne2, heq⟩ := List.mem_getLast?_eq_getLast hx
      have hmem : x ∈ y :: u := heq ▸ List.getLast_mem hne2
      rw [List.nodup_cons] at hn
      exact hn.1 hmem

/-- From a computed singleton occurrence set, every decomposition is the
canonical one. -/
theorem unique_of_occSet (s pat : List Char) (n : Nat)
    (hocc : occSet s pat = [n]) :
    ∀ X Y, s = X ++ pat ++ Y → X = s.take n := by
  intro X Y hXY
  have hmem : X.length ∈ occSet s pat := by
    rw [mem_occSet]
    refine ⟨?_, ?_⟩
    · rw [hXY, List.append_assoc, List.length_append, List.length_append]
      omega
    · rw [hXY, List.append_assoc, List.drop_left]
      exact ⟨Y, rfl⟩
  rw [hocc] at hmem
  have hlen : X.length = n := by simpa using hmem
  have htake : s.take X.length = X := by
    rw [hXY, List.append_assoc, List.take_left]
  rw [← hlen, htake]

/-- Extending an infix occurrence on the right. -/
theorem infix_ext_right (pat x z : List Char) (h : pat <:+: x) :
    pat <:+: x ++ z := by
  obtain ⟨u, v, huv⟩ := h
  exact ⟨u, v ++ z, by rw [← huv]; simp⟩

/-- Extending an infix occurrence on the left. -/
theorem infix_ext_left (pat y x : List Char) (h : pat <:+: y) :
    pat <:+: x ++ y := by
  obtain ⟨u, v, huv⟩ := h
  exact ⟨x ++ u, v, by rw [← huv]; simp⟩

/-- Extending an infix occurrence past a head character. -/
theorem infix_cons_of (pat t : List Char) (c : Char) (h : pat <:+: t) :
    pat <:+: c :: t := by
  obtain ⟨u, v, huv⟩ := h
  exact ⟨c :: u, v, by rw [← huv]; simp⟩

/-- A nonempty pattern is not an infix of the empty string. -/
theorem not_infix_nil (pat : List Char) (h : pat ≠ []) : ¬ pat <:+: ([] : List Char) := by
  rintro ⟨u, v, huv⟩
  have h2 := List.append_eq_nil.mp huv
  exact h (List.append_eq_nil.mp h2.1).2

/-- A newline-free prefix of `x ++ '\n' :: y` is a prefix of `x`. -/
theorem prefix_newline_split (pat : List Char) (hnl : '\n' ∉ pat) :
    ∀ x y, pat <+: x ++ '\n' :: y → pat <+: x := by
  induction pat with
  | nil => intro x y _; exact List.nil_prefix
  | cons p ps ih =>
    intro x y h
    cases x with
    | nil =>
      rw [List.nil_append] at h
      obtain ⟨hp, -⟩ := List.cons_prefix_cons.mp h
      subst hp
      exact absurd (List.mem_cons_self _ _) hnl
    | cons a xt =>
      rw [List.cons_append] at h
      obtain ⟨hp, hps⟩ := List.cons_prefix_cons.mp h
      subst hp
      have hps2 : ps <+: xt :=
        ih (fun hm => hnl (List.mem_cons_of_mem _ hm)) xt y hps
      exact List.cons_prefix_cons.mpr ⟨rfl, hps2⟩

/-- Occurrence-splitting at a newline: an occurrence of a newline-free
pattern in `x ++ '\n' :: y` lies wholly in `x` or wholly in `y`, with exact
position bookkeeping. -/
theorem occ_split_newline (pat : List Char) (hnl : '\n' ∉ pat) (hne : pat ≠ [])
    (x y : List Char) :
    ∀ X Y, X ++ pat ++ Y = x ++ '\n' :: y →
      (∃ u v, u ++ pat ++ v = x ∧ X = u ∧ Y = v ++ '\n' :: y) ∨
      (∃ u v, u ++ pat ++ v = y ∧ X = x ++ '\n' :: u ∧ Y = v) := by
  induction x with
  | nil =>
    intro X Y h
    cases X with
    | nil =>
      cases pat with
      | nil => exact absurd rfl hne
      | cons p ps =>
        simp only [List.nil_append, List.cons_append] at h
        injection h with h1 h2
        subst h1
        exact absurd (List.mem_cons_self _ _) hnl
    | cons c Xs =>
      simp only [List.nil_append, List.cons_append] at h
      injection h with h1 h2
      subst h1
      exact Or.inr ⟨Xs, Y, h2, rfl, rfl⟩
  | cons a xt ih =>
    intro X Y h
    cases X with
    | nil =>
      have hpre : pat <+: (a :: xt) ++ '\n' :: y := ⟨Y, by simpa using h⟩
      have hpx : pat <+: a :: xt := prefix_newline_split pat hnl (a :: xt) y hpre
      obtain ⟨v, hv⟩ := hpx
      refine Or.inl ⟨[], v, by simpa using hv, rfl, ?_⟩
      have h2 : pat ++ Y = pat ++ (v ++ '\n' :: y) := by
        have h3 : pat ++ Y = (pat ++ v) ++ '\n' :: y := by
          rw [hv]; simpa using h
        rw [h3, List.append_assoc]
      exact List.append_cancel_left h2
    | cons c Xs =>
      simp only [List.cons_append] at h
      injection h with h1 h2
      rcases ih Xs Y (by simpa using h2) with
        ⟨u, v, h3, h4, h5⟩ | ⟨u, v, h3, h4, h5⟩
      · refine Or.inl ⟨c :: u, v, ?_, by rw [h4], h5⟩
        simp only [List.cons_append]
        rw [h3, h1]
      · refine Or.inr ⟨u, v, h3, ?_, h5⟩
        rw [h4, h1, List.cons_append]

/-- Infix version of occurrence-splitting at a newline. -/
theorem infix_newline_split (pat : List Char) (hnl : '\n' ∉ pat)
    (hne : pat ≠ []) (x y : List Char) (h : pat <:+: x ++ '\n' :: y) :
    pat <:+: x ∨ pat <:+: y := by
  obtain ⟨X, Y, hXY⟩ := h
  rcases occ_split_newline pat hnl hne x y X Y hXY with
    ⟨u, v, h1, -, -⟩ | ⟨u, v, h1, -, -⟩
  · exact Or.inl ⟨u, v, h1⟩
  · exact Or.inr ⟨u, v, h1⟩

/-- `pyReplaceAux` is the identity when the pattern does not occur. -/
theorem pyReplaceAux_no_occ (old new : List Char) :
    ∀ fuel s, ¬ old <:+: s → pyReplaceAux old new fuel s = s := by
  intro fuel
  induction fuel with
  | zero => intro s _; rfl
  | succ fuel ih =>
    intro s h
    cases s with
    | nil => rfl
    | cons c t =>
      rw [pyReplaceAux, if_neg, ih t (fun hinf => h (infix_cons_of old t c hinf))]
      rintro ⟨-, hpre⟩
      obtain ⟨v, hv⟩ := hpre
      exact h ⟨[], v, by simpa using hv⟩

/-- `str.replace` is the identity when the pattern does not occur. -/
theorem pyReplace_no_occ (s old new : List Char) (h : ¬ old <:+: s) :
    pyReplace s old new = s :=
  pyReplaceAux_no_occ old new s.length s h

/-- `pyReplaceAux` on a string with a unique occurrence replaces exactly it. -/
theorem pyReplaceAux_unique (old new : List Char) (hold : old ≠ []) :
    ∀ A C, (∀ X Y, A ++ old ++ C = X ++ old ++ Y → X = A) →
      ∀ fuel, (A ++ old ++ C).length ≤ fuel →
        pyReplaceAux old new fuel (A ++ old ++ C) = A ++ new ++ C := by
  intro A
  induction A with
  | nil =>
    intro C hu fuel hfuel
    cases old with
    | nil => exact absurd rfl hold
    | cons o ot =>
      cases fuel with
      | zero => simp at hfuel
      | succ f =>
        have hnoC : ¬ (o :: ot) <:+: C := by
          rintro ⟨u, v, huv⟩
          have h2 : ([] : List Char) ++ (o :: ot) ++ C =
              ((o :: ot) ++ u) ++ (o :: ot) ++ v := by
            rw [← huv]; simp
          have h3 := hu _ _ h2
          simp at h3
        have hshape : ([] : List Char) ++ (o :: ot) ++ C = o :: (ot ++ C) := by
          simp
        have hcond : (o :: ot) ≠ [] ∧ (o :: ot) <+: o :: (ot ++ C) :=
          ⟨by simp, ⟨C, by simp⟩⟩
        rw [hshape, pyReplaceAux, if_pos hcond]
        have hdrop : (o :: (ot ++ C)).drop (o :: ot).length = C := by
          have h4 : o :: (ot ++ C) = (o :: ot) ++ C := by simp
          rw [h4, List.drop_left]
        rw [hdrop, pyReplaceAux_no_occ _ _ _ _ hnoC]
        simp
  | cons a At ih =>
    intro C hu fuel hfuel
    cases fuel with
    | zero => simp at hfuel
    | succ f =>
      have hshape : (a :: At) ++ old ++ C = a :: (At ++ old ++ C) := by simp
      have hu' : ∀ X Y, At ++ old ++ C = X ++ old ++ Y → X = At := by
        intro X Y hXY
        have h2 : (a :: At) ++ old ++ C = (a :: X) ++ old ++ Y := by
          have h6 := congrArg (fun l => a :: l) hXY
          simpa using h6
        have h3 := hu _ _ h2
        simpa using h3
      have hcond : ¬ (old ≠ [] ∧ old <+: a :: (At ++ old ++ C)) := by
        rintro ⟨-, hpre⟩
        obtain ⟨v, hv⟩ := hpre
        have h2 : (a :: At) ++ old ++ C = [] ++ old ++ v := by
          rw [List.nil_append, hv]
          exact hshape
        have h3 := hu _ _ h2
        simp at h3
      rw [hshape, pyReplaceAux, if_neg hcond]
      rw [ih C hu' f (by rw [hshape] at hfuel; simp at hfuel ⊢; omega)]
      simp

/-- `str.replace` on a string with a unique occurrence replaces exactly it. -/
theorem pyReplace_unique (old new A C : List Char) (hold : old ≠ [])
    (hu : ∀ X Y, A ++ old ++ C = X ++ old ++ Y → X = A) :
    pyReplace (A ++ old ++ C) old new = A ++ new ++ C :=
  pyReplaceAux_unique old new hold A C hu (A ++ old ++ C).length (le_refl _)

/-- A newline-free pattern absent from every line is absent from the join. -/
theorem not_infix_joinLines (pat : List Char) (hnl : '\n' ∉ pat)
    (hne : pat ≠ []) (ls : List (List Char)) (h : ∀ l ∈ ls, ¬ pat <:+: l) :
    ¬ pat <:+: joinLines ls := by
  induction ls with
  | nil =>
    rintro ⟨u, v, huv⟩
    rw [joinLines] at huv
    have := List.append_eq_nil.mp huv
    have h2 := List.append_eq_nil.mp this.1
    exact hne h2.2
  | cons l ls ih =>
    cases ls with
    | nil =>
      rw [joinLines, if_pos rfl]
      exact h l (List.mem_cons_self l [])
    | cons l2 rest =>
      rw [joinLines_cons_ne l (l2 :: rest) (by simp)]
      intro hinf
      rcases infix_newline_split pat hnl hne l (joinLines (l2 :: rest)) hinf with
        h1 | h1
      · exact h l (List.mem_cons_self l _) h1
      · exact ih (fun l' hl' => h l' (List.mem_cons_of_mem l hl')) h1

/-- The only occurrence in a join whose first segment holds the unique
occurrence and whose other segments are pattern-free is that occurrence. -/
theorem unique_at_first (pat : List Char) (hnl : '\n' ∉ pat) (hne : pat ≠ [])
    (s0 A : List Char) (segs : List (List Char))
    (h0 : ∀ u v, u ++ pat ++ v = s0 → u = A)
    (hrest : ∀ seg ∈ segs, ¬ pat <:+: seg) :
    ∀ X Y, X ++ pat ++ Y = joinLines (s0 :: segs) → X = A := by
  intro X Y hXY
  cases segs with
  | nil =>
    rw [joinLines, if_pos rfl] at hXY
    exact h0 X Y hXY
  | cons s1 rest =>
    rw [joinLines_cons_ne s0 (s1 :: rest) (by simp)] at hXY
    rcases occ_split_newline pat hnl hne s0 (joinLines (s1 :: rest)) X Y hXY with
      ⟨u, v, h1, h2, -⟩ | ⟨u, v, h1, -, -⟩
    · rw [h2]; exact h0 u v h1
    · exact absurd ⟨u, v, h1⟩
        (not_infix_joinLines pat hnl hne (s1 :: rest) hrest)

/-- An occurrence in a join whose first segment is pattern-free lies past that
segment. -/
theorem unique_skip (pat : List Char) (hnl : '\n' ∉ pat) (hne : pat ≠ [])
    (s0 A : List Char) (segs : List (List Char)) (hsegs : segs ≠ [])
    (h0 : ¬ pat <:+: s0)
    (hrec : ∀ X Y, X ++ pat ++ Y = joinLines segs → X = A) :
    ∀ X Y, X ++ pat ++ Y = joinLines (s0 :: segs) → X = s0 ++ '\n' :: A := by
  intro X Y hXY
  rw [joinLines_cons_ne s0 segs hsegs] at hXY
  rcases occ_split_newline pat hnl hne s0 (joinLines segs) X Y hXY with
    ⟨u, v, h1, -, -⟩ | ⟨u, v, h1, h2, -⟩
  · exact absurd ⟨u, v, h1⟩ h0
  · rw [h2, hrec u v h1]

/-- Skipping a list of pattern-free segments in a join. -/
theorem unique_skip_many (pat : List Char) (hnl : '\n' ∉ pat) (hne : pat ≠ []) :
    ∀ (pre segs : List (List Char)) (A2 : List Char), segs ≠ [] →
      (∀ seg ∈ pre, ¬ pat <:+: seg) →
      (∀ X Y, X ++ pat ++ Y = joinLines segs → X = A2) →
      ∀ X Y, X ++ pat ++ Y = joinLines (pre ++ segs) →
        X = pre.foldr (fun s acc => s ++ '\n' :: acc) A2 := by
  intro pre
  induction pre with
  | nil =>
    intro segs A2 _ _ hrec X Y hXY
    exact hrec X Y (by simpa using hXY)
  | cons p ps ih =>
    intro segs A2 hsegs hpre hrec X Y hXY
    rw [List.cons_append] at hXY
    have hps : ps ++ segs ≠ [] := by
      intro h2
      exact hsegs (List.append_eq_nil.mp h2).2
    have hrec2 : ∀ X Y, X ++ pat ++ Y = joinLines (ps ++ segs) →
        X = ps.foldr (fun s acc => s ++ '\n' :: acc) A2 :=
      ih segs A2 hsegs (fun seg hseg => hpre seg (List.mem_cons_of_mem p hseg))
        hrec
    have h3 := unique_skip pat hnl hne p
      (ps.foldr (fun s acc => s ++ '\n' :: acc) A2) (ps ++ segs) hps
      (hpre p (List.mem_cons_self p ps)) hrec2 X Y hXY
    rw [h3]
    rfl

/-- An infix of a middle segment contradicts occurrence uniqueness when the
position cannot match. -/
theorem no_infix_segment (pat s A P M Q : List Char)
    (hu : ∀ X Y, s = X ++ pat ++ Y → X = A) (hs : s = P ++ M ++ Q)
    (hdiff : ∀ u v, u ++ pat ++ v = M → P ++ u ≠ A) : ¬ pat <:+: M := by
  rintro ⟨u, v, huv⟩
  have h2 : s = (P ++ u) ++ pat ++ (v ++ Q) := by
    rw [hs, ← huv]
    simp [List.append_assoc]
  exact hdiff u v huv (hu _ _ h2)

/-- Python slicing an explicit middle out of a decomposition. -/
theorem pySlice_middle (P X Q : List Char) :
    pySlice (P ++ X ++ Q) P.length (P.length + X.length) = X := by
  unfold pySlice
  rw [show P ++ X ++ Q = (P ++ X) ++ Q from by simp,
    List.take_left' (by simp), List.drop_left]

/-- In a well-formed document, occurrences of START inside `A ++ START` are
only the canonical one. -/
theorem ctx_AS (A B C : List Char)
    (huS : ∀ X Y, A ++ START_MARKER ++ '\n' :: B ++ '\n' :: END_MARKER ++
      '\n' :: C = X ++ START_MARKER ++ Y → X = A) :
    ∀ u v, u ++ START_MARKER ++ v = A ++ START_MARKER → u = A := by
  intro u v huv
  apply huS u (v ++ '\n' :: B ++ '\n' :: END_MARKER ++ '\n' :: C)
  calc A ++ START_MARKER ++ '\n' :: B ++ '\n' :: END_MARKER ++ '\n' :: C
      = (A ++ START_MARKER) ++
        ('\n' :: B ++ '\n' :: END_MARKER ++ '\n' :: C) := by simp
    _ = (u ++ START_MARKER ++ v) ++
        ('\n' :: B ++ '\n' :: END_MARKER ++ '\n' :: C) := by rw [huv]
    _ = u ++ START_MARKER ++
        (v ++ '\n' :: B ++ '\n' :: END_MARKER ++ '\n' :: C) := by simp

/-- The START marker does not occur in the marker region. -/
theorem ctx_noSB (A B C : List Char)
    (huS : ∀ X Y, A ++ START_MARKER ++ '\n' :: B ++ '\n' :: END_MARKER ++
      '\n' :: C = X ++ START_MARKER ++ Y → X = A) :
    ¬ START_MARKER <:+: B := by
  apply no_infix_segment START_MARKER
    (A ++ START_MARKER ++ '\n' :: B ++ '\n' :: END_MARKER ++ '\n' :: C) A
    (A ++ START_MARKER ++ ['\n']) B ('\n' :: END_MARKER ++ '\n' :: C) huS
    (by simp)
  intro u v huv he
  have h2 := congrArg List.length he
  simp only [List.length_append, List.length_cons, List.length_nil] at h2
  omega

/-- The START marker does not occur in the tail after the END marker. -/
theorem ctx_noSC (A B C : List Char)
    (huS : ∀ X Y, A ++ START_MARKER ++ '\n' :: B ++ '\n' :: END_MARKER ++
      '\n' :: C = X ++ START_MARKER ++ Y → X = A) :
    ¬ START_MARKER <:+: C := by
  apply no_infix_segment START_MARKER
    (A ++ START_MARKER ++ '\n' :: B ++ '\n' :: END_MARKER ++ '\n' :: C) A
    (A ++ START_MARKER ++ '\n' :: B ++ '\n' :: END_MARKER ++ ['\n']) C [] huS
    (by simp)
  intro u v huv he
  have h2 := congrArg List.length he
  simp only [List.length_append, List.length_cons, List.length_nil] at h2
  omega

/-- The END marker does not occur in the marker region. -/
theorem ctx_noEB (A B C : List Char)
    (huE : ∀ X Y, A ++ START_MARKER ++ '\n' :: B ++ '\n' :: END_MARKER ++
      '\n' :: C = X ++ END_MARKER ++ Y →
      X = A ++ START_MARKER ++ '\n' :: B ++ ['\n']) :
    ¬ END_MARKER <:+: B := by
  apply no_infix_segment END_MARKER
    (A ++ START_MARKER ++ '\n' :: B ++ '\n' :: END_MARKER ++ '\n' :: C)
    (A ++ START_MARKER ++ '\n' :: B ++ ['\n'])
    (A ++ START_MARKER ++ ['\n']) B ('\n' :: END_MARKER ++ '\n' :: C) huE
    (by simp)
  intro u v huv he
  have h2 := congrArg List.length he
  have h3 := congrArg List.length huv
  simp only [List.length_append, List.length_cons, List.length_nil] at h2 h3
  omega

/-- The END marker does not occur in the tail after the END marker. -/
theorem ctx_noEC (A B C : List Char)
    (huE : ∀ X Y, A ++ START_MARKER ++ '\n' :: B ++ '\n' :: END_MARKER ++
      '\n' :: C = X ++ END_MARKER ++ Y →
      X = A ++ START_MARKER ++ '\n' :: B ++ ['\n']) :
    ¬ END_MARKER <:+: C := by
  apply no_infix_segment END_MARKER
    (A ++ START_MARKER ++ '\n' :: B ++ '\n' :: END_MARKER ++ '\n' :: C)
    (A ++ START_MARKER ++ '\n' :: B ++ ['\n'])
    (A ++ START_MARKER ++ '\n' :: B ++ '\n' :: END_MARKER ++ ['\n']) C [] huE
    (by simp)
  intro u v huv he
  have h2 := congrArg List.length he
  simp only [List.length_append, List.length_cons, List.length_nil] at h2
  omega

/-- The END marker does not occur across the preamble and START marker. -/
theorem ctx_noEAS (A B C : List Char)
    (huE : ∀ X Y, A ++ START_MARKER ++ '\n' :: B ++ '\n' :: END_MARKER ++
      '\n' :: C = X ++ END_MARKER ++ Y →
      X = A ++ START_MARKER ++ '\n' :: B ++ ['\n']) :
    ¬ END_MARKER <:+: (A ++ START_MARKER) := by
  apply no_infix_segment END_MARKER
    (A ++ START_MARKER ++ '\n' :: B ++ '\n' :: END_MARKER ++ '\n' :: C)
    (A ++ START_MARKER ++ '\n' :: B ++ ['\n'])
    [] (A ++ START_MARKER) ('\n' :: B ++ '\n' :: END_MARKER ++ '\n' :: C) huE
    (by simp)
  intro u v huv he
  have h2 := congrArg List.length he
  have h3 := congrArg List.length huv
  simp only [List.length_append, List.length_cons, List.length_nil, List.nil_append] at h2 h3
  omega

/-- The first occurrence of the START marker sits right after the preamble. -/
theorem ctx_findS (A B C : List Char)
    (huS : ∀ X Y, A ++ START_MARKER ++ '\n' :: B ++ '\n' :: END_MARKER ++
      '\n' :: C = X ++ START_MARKER ++ Y → X = A) :
    pyFind (A ++ START_MARKER ++ '\n' :: B ++ '\n' :: END_MARKER ++ '\n' :: C)
      START_MARKER = some A.length := by
  have hocc := occSet_of_uniqueOcc
    (A ++ START_MARKER ++ '\n' :: B ++ '\n' :: END_MARKER ++ '\n' :: C)
    START_MARKER A ('\n' :: B ++ '\n' :: END_MARKER ++ '\n' :: C)
    ⟨by simp, huS⟩
  rw [pyFind, hocc]
  rfl

/-- The first occurrence of the END marker sits right after the region. -/
theorem ctx_findE (A B C : List Char)
    (huE : ∀ X Y, A ++ START_MARKER ++ '\n' :: B ++ '\n' :: END_MARKER ++
      '\n' :: C = X ++ END_MARKER ++ Y →
      X = A ++ START_MARKER ++ '\n' :: B ++ ['\n']) :
    pyFind (A ++ START_MARKER ++ '\n' :: B ++ '\n' :: END_MARKER ++ '\n' :: C)
      END_MARKER = some (A ++ START_MARKER ++ '\n' :: B ++ ['\n']).length := by
  have hocc := occSet_of_uniqueOcc
    (A ++ START_MARKER ++ '\n' :: B ++ '\n' :: END_MARKER ++ '\n' :: C)
    END_MARKER (A ++ START_MARKER ++ '\n' :: B ++ ['\n']) ('\n' :: C)
    ⟨by simp, huE⟩
  rw [pyFind, hocc]
  rfl

/-- The sliced-out previous entry is exactly the marker block. -/
theorem ctx_prev (A B C : List Char) :
    pySlice (A ++ START_MARKER ++ '\n' :: B ++ '\n' :: END_MARKER ++ '\n' :: C)
      A.length
      ((A ++ START_MARKER ++ '\n' :: B ++ ['\n']).length + END_MARKER.length) =
      START_MARKER ++ '\n' :: B ++ '\n' :: END_MARKER := by
  have hidx : (A ++ START_MARKER ++ '\n' :: B ++ ['\n']).length +
      END_MARKER.length =
      A.length + (START_MARKER ++ '\n' :: B ++ '\n' :: END_MARKER).length := by
    simp only [List.length_append, List.length_cons, List.length_nil]
    omega
  have hshape : A ++ START_MARKER ++ '\n' :: B ++ '\n' :: END_MARKER ++
      '\n' :: C =
      A ++ (START_MARKER ++ '\n' :: B ++ '\n' :: END_MARKER) ++ '\n' :: C := by
    simp
  rw [hidx, hshape]
  exact pySlice_middle A (START_MARKER ++ '\n' :: B ++ '\n' :: END_MARKER)
    ('\n' :: C)

/-- C9 helper: folding appends over the chunks reassembles the input. -/
theorem readChunksAux_foldl (n : Nat) (hn : 0 < n) :
    ∀ (fuel : Nat) (l : List Nat) (acc : List Nat), l.length ≤ fuel →
      (readChunksAux n fuel l).foldl (fun a c => a ++ c) acc = acc ++ l := by
  intro fuel
  induction fuel with
  | zero =>
    intro l acc hl
    have : l = [] := List.eq_nil_of_length_eq_zero (Nat.le_zero.mp hl)
    subst this
    simp [readChunksAux]
  | succ fuel ih =>
    intro l acc hl
    cases l with
    | nil => simp [readChunksAux]
    | cons x xs =>
      rw [readChunksAux]
      rw [List.foldl_cons]
      rw [ih ((x :: xs).drop n) (acc ++ (x :: xs).take n)
        (by simp [List.length_drop] at hl ⊢; omega)]
      rw [List.append_assoc, List.take_append_drop]

/-- C9 helper: a byte below 256 renders to characters of the hex alphabet. -/
theorem getD_mem_hex (i : Nat) (h : i < 16) : hexChars.getD i '0' ∈ hexChars := by
  interval_cases i <;> decide

/-- C9 helper: each rendered character is a lowercase hex digit. -/
theorem mem_toHexStr (bs : List Nat) (c : Char) (hc : c ∈ toHexStr bs) :
    c ∈ hexChars := by
  induction bs with
  | nil => simp [toHexStr] at hc
  | cons b bs ih =>
    have hc2 : c = hexChars.getD (b / 16 % 16) '0' ∨
        c = hexChars.getD (b % 16) '0' ∨ c ∈ toHexStr bs := by
      simpa [toHexStr, List.mem_cons] using hc
    rcases hc2 with h | h | h
    · rw [h]; exact getD_mem_hex _ (Nat.mod_lt _ (by omega))
    · rw [h]; exact getD_mem_hex _ (Nat.mod_lt _ (by omega))
    · exact ih h

/-- C9 helper: hex rendering doubles the length. -/
theorem toHexStr_length (bs : List Nat) : (toHexStr bs).length = 2 * bs.length := by
  induction bs with
  | nil => rfl
  | cons b bs ih =>
    simp only [toHexStr, List.foldr_cons] at ih ⊢
    simp only [List.length_cons, ih]
    omega

/-- C9 helper: the digest always consists of 32 bytes. -/
theorem sha256bytes_length (msg : List Nat) : (sha256bytes msg).length = 32 := by
  simp [sha256bytes, toBytesBE]

/-- The digest string never contains a newline. -/
theorem compute_sha256_no_newline (b : List Nat) : '\n' ∉ compute_sha256 b := by
  intro h
  have h2 : '\n' ∈ hexChars := mem_toHexStr _ _ (by simpa [compute_sha256] using h)
  exact absurd h2 (by decide)

/-- The per-asset scan is a fold computing a disjunction over lines. -/
theorem asset_scan_foldl (name sha : List Char) (ls : List (List Char)) :
    ∀ b : Bool,
      ls.foldl (fun valid line =>
        if name <:+: line then (if sha <:+: line then true else valid)
        else valid) b
      = (b || ls.any (fun line =>
          decide (name <:+: line) && decide (sha <:+: line))) := by
  induction ls with
  | nil => intro b; simp
  | cons l ls ih =>
    intro b
    rw [List.foldl_cons, List.any_cons]
    by_cases h1 : name <:+: l
    · by_cases h2 : sha <:+: l
      · rw [if_pos h1, if_pos h2, ih]
        simp [h1, h2]
      · rw [if_pos h1, if_neg h2, ih]
        simp [h1, h2]
    · rw [if_neg h1, ih]
      simp [h1]

/-- The scan accepts exactly when some commit-message line contains both the
asset name and the digest as substrings. -/
theorem asset_checksum_valid_iff (msg name sha : List Char) :
    asset_checksum_valid msg name sha = true ↔
      ∃ line ∈ splitlines msg, name <:+: line ∧ sha <:+: line := by
  unfold asset_checksum_valid
  rw [asset_scan_foldl]
  simp [List.any_eq_true]

/-- A successful anchored PR-reference match contains `[`. -/
theorem prMatchAt_bracket (s r : List Char) (h : prMatchAt s = some r) :
    '[' ∈ r := by
  simp only [prMatchAt] at h
  split at h
  · split at h
    · exact absurd h (by simp)
    · split at h
      · have h2 := Option.some.inj h
        rw [← h2]
        exact List.mem_cons_self _ _
      · exact absurd h (by simp)
  · exact absurd h (by simp)

/-- Every PR reference found by the scanner contains `[`. -/
theorem firstPRRef_bracket (ℓ r : List Char) (h : firstPRRef ℓ = some r) :
    '[' ∈ r := by
  induction ℓ with
  | nil => exact absurd h (by rw [firstPRRef] at h ⊢; simp at h)
  | cons c t ih =>
    rw [firstPRRef] at h
    cases hm : prMatchAt (c :: t) with
    | some r2 =>
      rw [hm] at h
      have h2 : r2 = r := Option.some.inj h
      exact h2 ▸ prMatchAt_bracket (c :: t) r2 hm
    | none =>
      rw [hm] at h
      exact ih h

/-- A line without a PR reference is kept by the merge. -/
theorem mergeLine_no_ref (old : List (List Char)) (line : List Char)
    (h : firstPRRef line = none) : mergeLine old line = line := by
  simp only [mergeLine, h]

/-- The fold underlying the merge keeps the accumulator when nothing
matches. -/
theorem mergeFold_keep (r acc : List Char) :
    ∀ (old : List (List Char)), (∀ ol ∈ old, ¬ r <:+: ol) →
      old.foldl (fun acc ol => if r <:+: ol then ol else acc) acc = acc := by
  intro old
  induction old with
  | nil => intro _; rfl
  | cons o os ih =>
    intro hno
    rw [List.foldl_cons, if_neg (hno o (List.mem_cons_self o os))]
    exact ih (fun ol hol => hno ol (List.mem_cons_of_mem o hol))

/-- A line whose reference matches no old line is kept by the merge. -/
theorem mergeLine_keep (old : List (List Char)) (line r : List Char)
    (h : firstPRRef line = some r) (hno : ∀ ol ∈ old, ¬ r <:+: ol) :
    mergeLine old line = line := by
  simp only [mergeLine, h]
  exact mergeFold_keep r line old hno

/-- The fold underlying the merge keeps a matching accumulator fixed when all
matching elements coincide. -/
theorem mergeFold_fixed (r ol : List Char) :
    ∀ (old : List (List Char)), (∀ o ∈ old, r <:+: o → o = ol) →
      old.foldl (fun acc o => if r <:+: o then o else acc) ol = ol := by
  intro old
  induction old with
  | nil => intro _; rfl
  | cons o os ih =>
    intro hall
    rw [List.foldl_cons]
    by_cases hro : r <:+: o
    · rw [if_pos hro, hall o (List.mem_cons_self o os) hro]
      exact ih (fun o2 ho2 => hall o2 (List.mem_cons_of_mem o ho2))
    · rw [if_neg hro]
      exact ih (fun o2 ho2 => hall o2 (List.mem_cons_of_mem o ho2))

/-- The fold underlying the merge lands on the unique matching element. -/
theorem mergeFold_unique (r ol : List Char) :
    ∀ (old : List (List Char)) (acc : List Char), ol ∈ old → r <:+: ol →
      (∀ o ∈ old, r <:+: o → o = ol) →
      old.foldl (fun acc o => if r <:+: o then o else acc) acc = ol := by
  intro old
  induction old with
  | nil => intro acc hol; cases hol
  | cons o os ih =>
    intro acc hol hr huniq
    rw [List.foldl_cons]
    by_cases hro : r <:+: o
    · rw [if_pos hro, huniq o (List.mem_cons_self o os) hro]
      exact mergeFold_fixed r ol os
        (fun o2 ho2 => huniq o2 (List.mem_cons_of_mem o ho2))
    · rw [if_neg hro]
      have hol2 : ol ∈ os := by
        rcases List.mem_cons.mp hol with h2 | h2
        · exact absurd (h2 ▸ hr) hro
        · exact h2
      exact ih acc hol2 hr
        (fun o2 ho2 h3 => huniq o2 (List.mem_cons_of_mem o ho2) h3)

/-- A line whose reference matches exactly one old line is replaced by that
old line, verbatim. -/
theorem mergeLine_unique (old : List (List Char)) (line r ol : List Char)
    (h : firstPRRef line = some r) (hol : ol ∈ old) (hr : r <:+: ol)
    (huniq : ∀ o ∈ old, r <:+: o → o = ol) :
    mergeLine old line = ol := by
  simp only [mergeLine, h]
  exact mergeFold_unique r ol old line hol hr huniq

/-- The merge either keeps the line or picks an old line containing the
line's PR reference. -/
theorem mergeLine_cases (old : List (List Char)) (line : List Char) :
    mergeLine old line = line ∨
      ∃ r, firstPRRef line = some r ∧ mergeLine old line ∈ old ∧
        r <:+: mergeLine old line := by
  cases h : firstPRRef line with
  | none => exact Or.inl (mergeLine_no_ref old line h)
  | some r =>
    have hred : mergeLine old line =
        old.foldl (fun acc o => if r <:+: o then o else acc) line := by
      simp only [mergeLine, h]
    have key : ∀ (old2 : List (List Char)) (acc : List Char),
        old2.foldl (fun acc o => if r <:+: o then o else acc) acc = acc ∨
          (old2.foldl (fun acc o => if r <:+: o then o else acc) acc ∈ old2 ∧
            r <:+: old2.foldl (fun acc o => if r <:+: o then o else acc) acc) := by
      intro old2
      induction old2 with
      | nil => intro acc; exact Or.inl rfl
      | cons o os ih =>
        intro acc
        rw [List.foldl_cons]
        by_cases hro : r <:+: o
        · rw [if_pos hro]
          rcases ih o with h2 | h2
          · exact Or.inr ⟨by rw [h2]; exact List.mem_cons_self o os,
              by rw [h2]; exact hro⟩
          · exact Or.inr ⟨List.mem_cons_of_mem o h2.1, h2.2⟩
        · rw [if_neg hro]
          rcases ih acc with h2 | h2
          · exact Or.inl h2
          · exact Or.inr ⟨List.mem_cons_of_mem o h2.1, h2.2⟩
    rw [hred]
    rcases key old line with h2 | h2
    · exact Or.inl h2
    · exact Or.inr ⟨r, rfl, h2.1, h2.2⟩

/-- Helper for C8: a fold over unrecognized files does not move the state. -/
theorem publish_fold_unrecognized (files : List (List Char))
    (h : ∀ f ∈ files, pySuffix f ≠ ".gz".toList ∧ pySuffix f ≠ ".whl".toList ∧
      pySuffix f ≠ ".tgz".toList)
    (acc : List PublishAction) :
    files.foldl (fun (p : List PublishAction × Bool) (path : List Char) =>
      let name := (path.reverse.takeWhile (fun c => c ≠ '/')).reverse
      let suf := pySuffix path
      if suf = ".gz".toList ∨ suf = ".whl".toList then
        (p.1 ++ [PublishAction.twine name], true)
      else if suf = ".tgz".toList then
        (p.1 ++ [PublishAction.npmPublish name], true)
      else p) (acc, false) = (acc, false) := by
  induction files generalizing acc with
  | nil => rfl
  | cons f fs ih =>
    have hf := h f (List.mem_cons_self f fs)
    have hrest : ∀ g ∈ fs, pySuffix g ≠ ".gz".toList ∧
        pySuffix g ≠ ".whl".toList ∧ pySuffix g ≠ ".tgz".toList :=
      fun g hg => h g (List.mem_cons_of_mem f hg)
    simp only [List.foldl_cons]
    rw [if_neg, if_neg]
    · exact ih hrest acc
    · exact hf.2.2
    · rintro (h1 | h2)
      · exact hf.1 h1
      · exact hf.2.1 h2

/-- Any occurrence of the END marker in the canonical document has the
canonical tail after it. -/
theorem ctx_tailE (A B C : List Char)
    (huE : ∀ X Y, A ++ START_MARKER ++ '\n' :: B ++ '\n' :: END_MARKER ++
      '\n' :: C = X ++ END_MARKER ++ Y →
      X = A ++ START_MARKER ++ '\n' :: B ++ ['\n']) :
    ∀ X Y, A ++ START_MARKER ++ '\n' :: B ++ '\n' :: END_MARKER ++ '\n' :: C =
      X ++ END_MARKER ++ Y → Y = '\n' :: C := by
  intro X Y h
  have hX := huE X Y h
  subst hX
  have h2 := h.symm
  simp only [List.append_assoc, List.cons_append, List.nil_append] at h2
  simpa using h2

/-- `splitlines` peels a newline-free first line. -/
theorem splitlines_cons_line (x ys : List Char) (hnl : '\n' ∉ x) :
    splitlines (x ++ '\n' :: ys) = x :: splitlines ys := by
  rw [splitlines_append_newline, splitlinesAux_block x hnl []]
  simp

/-- `splitlines` peels a leading newline as an empty line. -/
theorem splitlines_cons_newline (ys : List Char) :
    splitlines ('\n' :: ys) = [] :: splitlines ys := by
  rw [show ('\n' :: ys) = ([] ++ '\n' :: ys) from rfl,
    splitlines_cons_line [] ys (by simp)]

/-- `splitlines` recovers the segments of a join of newline-free lines when a
newline follows. -/
theorem splitlines_joinLines_append (es : List (List Char)) (tail : List Char)
    (hes : ∀ e ∈ es, '\n' ∉ e) (hne : es ≠ []) :
    splitlines (joinLines es ++ '\n' :: tail) = es ++ splitlines tail := by
  induction es with
  | nil => exact absurd rfl hne
  | cons e es2 ih =>
    cases es2 with
    | nil =>
      rw [joinLines, if_pos rfl,
        splitlines_cons_line e tail (hes e (List.mem_cons_self e []))]
      rfl
    | cons e2 rest =>
      rw [joinLines_cons_ne e (e2 :: rest) (by simp),
        show (e ++ '\n' :: joinLines (e2 :: rest)) ++ '\n' :: tail =
          e ++ '\n' :: (joinLines (e2 :: rest) ++ '\n' :: tail) from by simp,
        splitlines_cons_line e _ (hes e (List.mem_cons_self e _)),
        ih (fun x hx => hes x (List.mem_cons_of_mem e hx)) (by simp)]
      rfl

/-- Every segment of a join is an infix of the join. -/
theorem mem_infix_joinLines (b : List Char) (bs : List (List Char))
    (hb : b ∈ bs) : b <:+: joinLines bs := by
  induction bs with
  | nil => cases hb
  | cons x xt ih =>
    rcases List.mem_cons.mp hb with h1 | h1
    · subst h1
      cases xt with
      | nil => rw [joinLines, if_pos rfl]
      | cons y u =>
        rw [joinLines_cons_ne b (y :: u) (by simp)]
        exact infix_ext_right b b _ (List.infix_refl b)
    · cases xt with
      | nil => cases h1
      | cons y u =>
        rw [joinLines_cons_ne x (y :: u) (by simp)]
        exact infix_ext_left b _ _ (infix_cons_of b _ '\n' (ih h1))

/-- The final replace of the insert branch rewrites the unique START marker
into the new entry block. -/
theorem insert_third_replace (A B Ct entry : List Char)
    (hAS : ∀ u v, u ++ START_MARKER ++ v = A ++ START_MARKER → u = A)
    (hnSB : ¬ START_MARKER <:+: B) (hnSCt : ¬ START_MARKER <:+: Ct) :
    pyReplace (A ++ START_MARKER ++ '\n' :: B ++ '\n' :: Ct) START_MARKER
      (START_MARKER ++ '\n' :: '\n' :: (entry ++ '\n' :: '\n' :: END_MARKER)) =
    A ++ (START_MARKER ++ '\n' :: '\n' ::
      (entry ++ '\n' :: '\n' :: END_MARKER)) ++ '\n' :: B ++ '\n' :: Ct := by
  have hSnl : '\n' ∉ START_MARKER := by decide
  have hSne : START_MARKER ≠ [] := by decide
  have hjoin : A ++ START_MARKER ++ '\n' :: B ++ '\n' :: Ct =
      joinLines [A ++ START_MARKER, B, Ct] := by
    rw [joinLines_cons_ne _ _ (by simp), joinLines_cons_ne _ _ (by simp),
      joinLines, if_pos rfl]
    simp
  have huniq : ∀ X Y, A ++ START_MARKER ++ '\n' :: B ++ '\n' :: Ct =
      X ++ START_MARKER ++ Y → X = A := by
    intro X Y hXY
    apply unique_at_first START_MARKER hSnl hSne (A ++ START_MARKER) A [B, Ct]
      hAS ?_ X Y (by rw [← hjoin]; exact hXY.symm)
    intro seg hseg
    rcases List.mem_cons.mp hseg with h1 | h1
    · exact h1 ▸ hnSB
    · have h2 : seg = Ct := by simpa using h1
      exact h2 ▸ hnSCt
  have hsh : A ++ START_MARKER ++ '\n' :: B ++ '\n' :: Ct =
      A ++ START_MARKER ++ ('\n' :: B ++ '\n' :: Ct) := by simp
  have huniq2 : ∀ X Y, A ++ START_MARKER ++ ('\n' :: B ++ '\n' :: Ct) =
      X ++ START_MARKER ++ Y → X = A := by
    intro X Y h
    exact huniq X Y (by rw [hsh]; exact h)
  rw [hsh, pyReplace_unique START_MARKER _ A ('\n' :: B ++ '\n' :: Ct) hSne
    huniq2]
  simp

/-- The insert branch of `prep_changelog_update` on a canonical document:
both trailing-newline removals collapse to one canonical form. -/
theorem prep_changelog_insert_eq (A B C entry version : List Char)
    (huS : ∀ X Y, A ++ START_MARKER ++ '\n' :: B ++ '\n' :: END_MARKER ++
      '\n' :: C = X ++ START_MARKER ++ Y → X = A)
    (huE : ∀ X Y, A ++ START_MARKER ++ '\n' :: B ++ '\n' :: END_MARKER ++
      '\n' :: C = X ++ END_MARKER ++ Y →
      X = A ++ START_MARKER ++ '\n' :: B ++ ['\n'])
    (hcond : ¬ ('#' :: ' ' :: version) <:+:
      (START_MARKER ++ '\n' :: B ++ '\n' :: END_MARKER)) :
    ∃ Ct, (Ct = C ∨ C = '\n' :: Ct) ∧
      prep_changelog_update
        (A ++ START_MARKER ++ '\n' :: B ++ '\n' :: END_MARKER ++ '\n' :: C)
        entry version =
      A ++ (START_MARKER ++ '\n' :: '\n' ::
        (entry ++ '\n' :: '\n' :: END_MARKER)) ++ '\n' :: B ++ '\n' :: Ct := by
  have hEnl : '\n' ∉ END_MARKER := by decide
  have hEne : END_MARKER ≠ [] := by decide
  have hfS := ctx_findS A B C huS
  have hfE := ctx_findE A B C huE
  have hprev := ctx_prev A B C
  have hAS := ctx_AS A B C huS
  have hnSB := ctx_noSB A B C huS
  have hnSC := ctx_noSC A B C huS
  have hnEB := ctx_noEB A B C huE
  have hnEC := ctx_noEC A B C huE
  have hnEAS := ctx_noEAS A B C huE
  have htailE := ctx_tailE A B C huE
  have hred : prep_changelog_update
      (A ++ START_MARKER ++ '\n' :: B ++ '\n' :: END_MARKER ++ '\n' :: C)
      entry version =
      pyReplace (pyReplace (pyReplace
        (A ++ START_MARKER ++ '\n' :: B ++ '\n' :: END_MARKER ++ '\n' :: C)
        (END_MARKER ++ '\n' :: '\n' :: []) [])
        (END_MARKER ++ '\n' :: []) []) START_MARKER
        (START_MARKER ++ '\n' :: '\n' :: (entry ++ '\n' :: '\n' :: END_MARKER))
      := by
    simp only [prep_changelog_update, hfS, hfE, Option.getD_some, hprev]
    rw [if_neg hcond]
  cases hCc : C with
  | nil =>
    refine ⟨[], Or.inl rfl, ?_⟩
    subst hCc
    rw [hred]
    have hno1 : ¬ (END_MARKER ++ '\n' :: '\n' :: []) <:+:
        (A ++ START_MARKER ++ '\n' :: B ++ '\n' :: END_MARKER ++
          '\n' :: ([] : List Char)) := by
      rintro ⟨u, v, huv⟩
      have h2 := htailE u ('\n' :: '\n' :: v)
        (by rw [← huv]; simp)
      simp at h2
    rw [pyReplace_no_occ _ _ _ hno1]
    have hu2 : ∀ X Y, (A ++ START_MARKER ++ '\n' :: B ++ ['\n']) ++
        (END_MARKER ++ '\n' :: []) ++ ([] : List Char) =
        X ++ (END_MARKER ++ '\n' :: []) ++ Y → X =
        A ++ START_MARKER ++ '\n' :: B ++ ['\n'] := by
      intro X Y h
      apply huE X ('\n' :: Y)
      calc A ++ START_MARKER ++ '\n' :: B ++ '\n' :: END_MARKER ++
            '\n' :: ([] : List Char)
          = (A ++ START_MARKER ++ '\n' :: B ++ ['\n']) ++
            (END_MARKER ++ '\n' :: []) ++ ([] : List Char) := by simp
        _ = X ++ (END_MARKER ++ '\n' :: []) ++ Y := h
        _ = X ++ END_MARKER ++ '\n' :: Y := by simp
    have h3 := pyReplace_unique (END_MARKER ++ '\n' :: [])
      [] (A ++ START_MARKER ++ '\n' :: B ++ ['\n']) [] (by simp) hu2
    rw [show A ++ START_MARKER ++ '\n' :: B ++ '\n' :: END_MARKER ++
        '\n' :: ([] : List Char) =
        (A ++ START_MARKER ++ '\n' :: B ++ ['\n']) ++
        (END_MARKER ++ '\n' :: []) ++ ([] : List Char) from by simp, h3]
    rw [show (A ++ START_MARKER ++ '\n' :: B ++ ['\n']) ++ ([] : List Char) ++
        ([] : List Char) = A ++ START_MARKER ++ '\n' :: B ++
        '\n' :: ([] : List Char) from by simp]
    exact insert_third_replace A B [] entry hAS hnSB (not_infix_nil _ (by decide))
  | cons c0 C2 =>
    by_cases hc0 : c0 = '\n'
    · subst hc0
      refine ⟨C2, Or.inr rfl, ?_⟩
      subst hCc
      rw [hred]
      have hu1 : ∀ X Y, (A ++ START_MARKER ++ '\n' :: B ++ ['\n']) ++
          (END_MARKER ++ '\n' :: '\n' :: []) ++ C2 =
          X ++ (END_MARKER ++ '\n' :: '\n' :: []) ++ Y → X =
          A ++ START_MARKER ++ '\n' :: B ++ ['\n'] := by
        intro X Y h
        apply huE X ('\n' :: '\n' :: Y)
        calc A ++ START_MARKER ++ '\n' :: B ++ '\n' :: END_MARKER ++
              '\n' :: '\n' :: C2
            = (A ++ START_MARKER ++ '\n' :: B ++ ['\n']) ++
              (END_MARKER ++ '\n' :: '\n' :: []) ++ C2 := by simp
          _ = X ++ (END_MARKER ++ '\n' :: '\n' :: []) ++ Y := h
          _ = X ++ END_MARKER ++ '\n' :: '\n' :: Y := by simp
      have h3 := pyReplace_unique (END_MARKER ++ '\n' :: '\n' :: [])
        [] (A ++ START_MARKER ++ '\n' :: B ++ ['\n']) C2 (by simp) hu1
      rw [show A ++ START_MARKER ++ '\n' :: B ++ '\n' :: END_MARKER ++
          '\n' :: '\n' :: C2 =
          (A ++ START_MARKER ++ '\n' :: B ++ ['\n']) ++
          (END_MARKER ++ '\n' :: '\n' :: []) ++ C2 from by simp, h3]
      rw [show (A ++ START_MARKER ++ '\n' :: B ++ ['\n']) ++ ([] : List Char) ++
          C2 = A ++ START_MARKER ++ '\n' :: B ++ '\n' :: C2 from by simp]
      have hnSC2 : ¬ START_MARKER <:+: C2 := fun h =>
        hnSC (infix_cons_of _ _ '\n' h)
      have hnEC2 : ¬ END_MARKER <:+: C2 := fun h =>
        hnEC (infix_cons_of _ _ '\n' h)
      have hnE1 : ¬ END_MARKER <:+:
          (A ++ START_MARKER ++ '\n' :: B ++ '\n' :: C2) := by
        have hjoin : A ++ START_MARKER ++ '\n' :: B ++ '\n' :: C2 =
            joinLines [A ++ START_MARKER, B, C2] := by
          rw [joinLines_cons_ne _ _ (by simp), joinLines_cons_ne _ _ (by simp),
            joinLines, if_pos rfl]
          simp
        rw [hjoin]
        apply not_infix_joinLines END_MARKER hEnl hEne
        intro seg hseg
        rcases List.mem_cons.mp hseg with h1 | h1
        · exact h1 ▸ hnEAS
        rcases List.mem_cons.mp h1 with h2 | h2
        · exact h2 ▸ hnEB
        · have h4 : seg = C2 := by simpa using h2
          exact h4 ▸ hnEC2
      have hno2 : ¬ (END_MARKER ++ '\n' :: []) <:+:
          (A ++ START_MARKER ++ '\n' :: B ++ '\n' :: C2) := by
        rintro ⟨u, v, huv⟩
        exact hnE1 ⟨u, '\n' :: v, by rw [← huv]; simp⟩
      rw [pyReplace_no_occ _ _ _ hno2]
      exact insert_third_replace A B C2 entry hAS hnSB hnSC2
    · refine ⟨c0 :: C2, Or.inl rfl, ?_⟩
      subst hCc
      rw [hred]
      have hno1 : ¬ (END_MARKER ++ '\n' :: '\n' :: []) <:+:
          (A ++ START_MARKER ++ '\n' :: B ++ '\n' :: END_MARKER ++
            '\n' :: c0 :: C2) := by
        rintro ⟨u, v, huv⟩
        have h2 := htailE u ('\n' :: '\n' :: v)
          (by rw [← huv]; simp)
        simp at h2
        exact hc0 h2.1.symm
      rw [pyReplace_no_occ _ _ _ hno1]
      have hu2 : ∀ X Y, (A ++ START_MARKER ++ '\n' :: B ++ ['\n']) ++
          (END_MARKER ++ '\n' :: []) ++ (c0 :: C2) =
          X ++ (END_MARKER ++ '\n' :: []) ++ Y → X =
          A ++ START_MARKER ++ '\n' :: B ++ ['\n'] := by
        intro X Y h
        apply huE X ('\n' :: Y)
        calc A ++ START_MARKER ++ '\n' :: B ++ '\n' :: END_MARKER ++
              '\n' :: c0 :: C2
            = (A ++ START_MARKER ++ '\n' :: B ++ ['\n']) ++
              (END_MARKER ++ '\n' :: []) ++ (c0 :: C2) := by simp
          _ = X ++ (END_MARKER ++ '\n' :: []) ++ Y := h
          _ = X ++ END_MARKER ++ '\n' :: Y := by simp
      have h3 := pyReplace_unique (END_MARKER ++ '\n' :: [])
        [] (A ++ START_MARKER ++ '\n' :: B ++ ['\n']) (c0 :: C2) (by simp) hu2
      rw [show A ++ START_MARKER ++ '\n' :: B ++ '\n' :: END_MARKER ++
          '\n' :: c0 :: C2 =
          (A ++ START_MARKER ++ '\n' :: B ++ ['\n']) ++
          (END_MARKER ++ '\n' :: []) ++ (c0 :: C2) from by simp, h3]
      rw [show (A ++ START_MARKER ++ '\n' :: B ++ ['\n']) ++ ([] : List Char) ++
          (c0 :: C2) = A ++ START_MARKER ++ '\n' :: B ++ '\n' :: c0 :: C2
          from by simp]
      exact insert_third_replace A B (c0 :: C2) entry hAS hnSB hnSC

/-- The merge branch of `prep_changelog_update` on a canonical document:
the previous entry is replaced by the line-merged new entry. -/
theorem prep_changelog_merge_eq (A B C entry version : List Char)
    (huS : ∀ X Y, A ++ START_MARKER ++ '\n' :: B ++ '\n' :: END_MARKER ++
      '\n' :: C = X ++ START_MARKER ++ Y → X = A)
    (huE : ∀ X Y, A ++ START_MARKER ++ '\n' :: B ++ '\n' :: END_MARKER ++
      '\n' :: C = X ++ END_MARKER ++ Y →
      X = A ++ START_MARKER ++ '\n' :: B ++ ['\n'])
    (hcond : ('#' :: ' ' :: version) <:+:
      (START_MARKER ++ '\n' :: B ++ '\n' :: END_MARKER)) :
    prep_changelog_update
      (A ++ START_MARKER ++ '\n' :: B ++ '\n' :: END_MARKER ++ '\n' :: C)
      entry version =
    A ++ joinLines ((splitlines (START_MARKER ++ '\n' :: '\n' ::
        (entry ++ '\n' :: '\n' :: END_MARKER))).map
      (mergeLine (splitlines
        (START_MARKER ++ '\n' :: B ++ '\n' :: END_MARKER)))) ++ '\n' :: C := by
  have hfS := ctx_findS A B C huS
  have hfE := ctx_findE A B C huE
  have hprev := ctx_prev A B C
  have hred : prep_changelog_update
      (A ++ START_MARKER ++ '\n' :: B ++ '\n' :: END_MARKER ++ '\n' :: C)
      entry version =
      pyReplace (A ++ START_MARKER ++ '\n' :: B ++ '\n' :: END_MARKER ++
        '\n' :: C) (START_MARKER ++ '\n' :: B ++ '\n' :: END_MARKER)
        (joinLines ((splitlines (START_MARKER ++ '\n' :: '\n' ::
            (entry ++ '\n' :: '\n' :: END_MARKER))).map
          (mergeLine (splitlines
            (START_MARKER ++ '\n' :: B ++ '\n' :: END_MARKER))))) := by
    simp only [prep_changelog_update, hfS, hfE, Option.getD_some, hprev]
    rw [if_pos hcond]
  rw [hred]
  have hu : ∀ X Y, A ++ (START_MARKER ++ '\n' :: B ++ '\n' :: END_MARKER) ++
      '\n' :: C = X ++ (START_MARKER ++ '\n' :: B ++ '\n' :: END_MARKER) ++
      Y → X = A := by
    intro X Y h
    apply huS X ('\n' :: B ++ '\n' :: END_MARKER ++ Y)
    calc A ++ START_MARKER ++ '\n' :: B ++ '\n' :: END_MARKER ++ '\n' :: C
        = A ++ (START_MARKER ++ '\n' :: B ++ '\n' :: END_MARKER) ++
          '\n' :: C := by simp
      _ = X ++ (START_MARKER ++ '\n' :: B ++ '\n' :: END_MARKER) ++ Y := h
      _ = X ++ START_MARKER ++ ('\n' :: B ++ '\n' :: END_MARKER ++ Y) := by
          simp
  rw [show A ++ START_MARKER ++ '\n' :: B ++ '\n' :: END_MARKER ++ '\n' :: C =
      A ++ (START_MARKER ++ '\n' :: B ++ '\n' :: END_MARKER) ++ '\n' :: C
      from by simp,
    pyReplace_unique _ _ A ('\n' :: C) (by simp) hu]

/-- Exactly-one-marker-pair structure of any document of the canonical result
shape, given marker-freedom of the middle and the tail. -/
theorem result_doc_wf (A mid tail : List Char)
    (hAS : ∀ u v, u ++ START_MARKER ++ v = A ++ START_MARKER → u = A)
    (hnEAS : ¬ END_MARKER <:+: (A ++ START_MARKER))
    (hnSmid : ¬ START_MARKER <:+: mid) (hnEmid : ¬ END_MARKER <:+: mid)
    (hnStail : ¬ START_MARKER <:+: tail) (hnEtail : ¬ END_MARKER <:+: tail) :
    wellFormedDoc (A ++ START_MARKER ++ '\n' :: '\n' :: mid ++ '\n' :: '\n' ::
      END_MARKER ++ '\n' :: tail) ∧
    countSub (A ++ START_MARKER ++ '\n' :: '\n' :: mid ++ '\n' :: '\n' ::
      END_MARKER ++ '\n' :: tail) START_MARKER = 1 ∧
    countSub (A ++ START_MARKER ++ '\n' :: '\n' :: mid ++ '\n' :: '\n' ::
      END_MARKER ++ '\n' :: tail) END_MARKER = 1 := by
  have hSnl : '\n' ∉ START_MARKER := by decide
  have hSne : START_MARKER ≠ [] := by decide
  have hEnl : '\n' ∉ END_MARKER := by decide
  have hEne : END_MARKER ≠ [] := by decide
  have hnSE : ¬ START_MARKER <:+: END_MARKER := by decide
  have hjoin : A ++ START_MARKER ++ '\n' :: '\n' :: mid ++ '\n' :: '\n' ::
      END_MARKER ++ '\n' :: tail =
      joinLines [A ++ START_MARKER, [], mid, [], END_MARKER, tail] := by
    rw [joinLines_cons_ne _ _ (by simp), joinLines_cons_ne _ _ (by simp),
      joinLines_cons_ne _ _ (by simp), joinLines_cons_ne _ _ (by simp),
      joinLines_cons_ne _ _ (by simp), joinLines, if_pos rfl]
    simp
  have huS : ∀ X Y, A ++ START_MARKER ++ '\n' :: '\n' :: mid ++ '\n' :: '\n' ::
      END_MARKER ++ '\n' :: tail = X ++ START_MARKER ++ Y → X = A := by
    intro X Y h
    apply unique_at_first START_MARKER hSnl hSne (A ++ START_MARKER) A
      [[], mid, [], END_MARKER, tail] hAS ?_ X Y (by rw [← hjoin]; exact h.symm)
    intro seg hseg
    rcases List.mem_cons.mp hseg with h1 | hseg
    · exact h1 ▸ not_infix_nil _ hSne
    rcases List.mem_cons.mp hseg with h1 | hseg
    · exact h1 ▸ hnSmid
    rcases List.mem_cons.mp hseg with h1 | hseg
    · exact h1 ▸ not_infix_nil _ hSne
    rcases List.mem_cons.mp hseg with h1 | hseg
    · exact h1 ▸ hnSE
    have h1 : seg = tail := by simpa using hseg
    exact h1 ▸ hnStail
  have hpre : ∀ seg ∈ [A ++ START_MARKER, [], mid, ([] : List Char)],
      ¬ END_MARKER <:+: seg := by
    intro seg hseg
    rcases List.mem_cons.mp hseg with h1 | hseg
    · exact h1 ▸ hnEAS
    rcases List.mem_cons.mp hseg with h1 | hseg
    · exact h1 ▸ not_infix_nil _ hEne
    rcases List.mem_cons.mp hseg with h1 | hseg
    · exact h1 ▸ hnEmid
    have h1 : seg = [] := by simpa using hseg
    exact h1 ▸ not_infix_nil _ hEne
  have hrecE : ∀ X Y, X ++ END_MARKER ++ Y =
      joinLines [END_MARKER, tail] → X = [] := by
    apply unique_at_first END_MARKER hEnl hEne END_MARKER [] [tail]
    · intro u v huv
      have h2 := congrArg List.length huv
      simp only [List.length_append] at h2
      have h3 : u.length = 0 := by omega
      exact List.length_eq_zero.mp h3
    · intro seg hseg
      have h1 : seg = tail := by simpa using hseg
      exact h1 ▸ hnEtail
  have hfold : ([A ++ START_MARKER, [], mid, ([] : List Char)]).foldr
      (fun s acc => s ++ '\n' :: acc) [] =
      A ++ START_MARKER ++ ('\n' :: '\n' :: mid ++ '\n' :: ['\n']) := by
    simp [List.foldr_cons, List.foldr_nil]
  have huE : ∀ X Y, A ++ START_MARKER ++ '\n' :: '\n' :: mid ++ '\n' :: '\n' ::
      END_MARKER ++ '\n' :: tail = X ++ END_MARKER ++ Y →
      X = A ++ START_MARKER ++ ('\n' :: '\n' :: mid ++ '\n' :: ['\n']) := by
    intro X Y h
    have h2 := unique_skip_many END_MARKER hEnl hEne
      [A ++ START_MARKER, [], mid, []] [END_MARKER, tail] [] (by simp) hpre
      hrecE X Y (h.symm.trans hjoin)
    rw [h2, hfold]
  refine ⟨⟨A, '\n' :: '\n' :: mid ++ '\n' :: ['\n'], '\n' :: tail,
    by simp, ?_, ?_⟩, ?_, ?_⟩
  · intro X Y h
    exact huS X Y (by rw [← h])
  · intro X Y h
    exact huE X Y (by rw [← h])
  · have hoccS : occSet (A ++ START_MARKER ++ '\n' :: '\n' :: mid ++
        '\n' :: '\n' :: END_MARKER ++ '\n' :: tail) START_MARKER =
        [A.length] :=
      occSet_of_uniqueOcc _ _ A
        ('\n' :: '\n' :: mid ++ '\n' :: '\n' :: END_MARKER ++ '\n' :: tail)
        ⟨by simp, huS⟩
    rw [countSub, hoccS]
    rfl
  · have hoccE : occSet (A ++ START_MARKER ++ '\n' :: '\n' :: mid ++
        '\n' :: '\n' :: END_MARKER ++ '\n' :: tail) END_MARKER =
        [(A ++ START_MARKER ++ ('\n' :: '\n' :: mid ++ '\n' :: ['\n'])).length]
        :=
      occSet_of_uniqueOcc _ _
        (A ++ START_MARKER ++ ('\n' :: '\n' :: mid ++ '\n' :: ['\n']))
        ('\n' :: tail) ⟨by simp, huE⟩
    rw [countSub, hoccE]
    rfl

/-- Line decomposition of the freshly generated entry block. -/
theorem splitlines_newE (es : List (List Char)) (hes : ∀ e ∈ es, '\n' ∉ e)
    (hne : es ≠ []) :
    splitlines (START_MARKER ++ '\n' :: '\n' ::
        (joinLines es ++ '\n' :: '\n' :: END_MARKER)) =
      START_MARKER :: [] :: (es ++ [[], END_MARKER]) := by
  rw [splitlines_cons_line START_MARKER _ (by decide),
    splitlines_cons_newline,
    splitlines_joinLines_append es ('\n' :: END_MARKER) hes hne,
    splitlines_cons_newline,
    splitlines_single END_MARKER (by decide) (by decide)]

/-- Line decomposition of the previous marker-region block. -/
theorem splitlines_PREV (bs : List (List Char)) (hbs : ∀ b ∈ bs, '\n' ∉ b)
    (hne : bs ≠ []) :
    splitlines (START_MARKER ++ '\n' :: joinLines bs ++ '\n' :: END_MARKER) =
      START_MARKER :: bs ++ [END_MARKER] := by
  rw [show START_MARKER ++ '\n' :: joinLines bs ++ '\n' :: END_MARKER =
      START_MARKER ++ '\n' :: (joinLines bs ++ '\n' :: END_MARKER)
      from by simp,
    splitlines_cons_line START_MARKER _ (by decide),
    splitlines_joinLines_append bs END_MARKER hbs hne,
    splitlines_single END_MARKER (by decide) (by decide)]
  rfl

/-- Mapping the line-merge over the entry block fixes the marker lines and
the blank lines. -/
theorem map_mergeLine_newE (old : List (List Char)) (es : List (List Char)) :
    (START_MARKER :: [] :: (es ++ [[], END_MARKER])).map (mergeLine old) =
      START_MARKER :: [] :: (es.map (mergeLine old) ++ [[], END_MARKER]) := by
  have hS : mergeLine old START_MARKER = START_MARKER :=
    mergeLine_no_ref old _ (by decide)
  have hnil : mergeLine old [] = [] := mergeLine_no_ref old [] (by decide)
  have hE : mergeLine old END_MARKER = END_MARKER :=
    mergeLine_no_ref old _ (by decide)
  simp [List.map_cons, List.map_append, hS, hnil, hE]

/-- A merged line stays marker-free when the new line and the old region
lines are marker-free: an old line is only ever chosen through a PR
reference, and the marker lines carry none. -/
theorem mergeLine_marker_free (bs : List (List Char)) (e : List Char)
    (hbS : ∀ b ∈ bs, ¬ START_MARKER <:+: b)
    (hbE : ∀ b ∈ bs, ¬ END_MARKER <:+: b)
    (heS : ¬ START_MARKER <:+: e) (heE : ¬ END_MARKER <:+: e) :
    ¬ START_MARKER <:+:
        mergeLine (START_MARKER :: bs ++ [END_MARKER]) e ∧
    ¬ END_MARKER <:+:
        mergeLine (START_MARKER :: bs ++ [END_MARKER]) e := by
  rcases mergeLine_cases (START_MARKER :: bs ++ [END_MARKER]) e with
    h | ⟨r, hr, hmem, hinf⟩
  · rw [h]; exact ⟨heS, heE⟩
  · have hbr : '[' ∈ r := firstPRRef_bracket e r hr
    rcases List.mem_cons.mp hmem with h1 | h1
    · exfalso
      have h2 : '[' ∈ START_MARKER := h1 ▸ hinf.subset hbr
      exact absurd h2 (by decide)
    rcases List.mem_append.mp h1 with h2 | h2
    · exact ⟨hbS _ h2, hbE _ h2⟩
    · exfalso
      have h3 : mergeLine (START_MARKER :: bs ++ [END_MARKER]) e =
          END_MARKER := by simpa using h2
      have h4 : '[' ∈ END_MARKER := h3 ▸ hinf.subset hbr
      exact absurd h4 (by decide)

/-- Join of the merged entry block. -/
theorem joinLines_mergedE (ms : List (List Char)) (hne : ms ≠ []) :
    joinLines (START_MARKER :: [] :: (ms ++ [[], END_MARKER])) =
      START_MARKER ++ '\n' :: '\n' :: joinLines ms ++ '\n' :: '\n' ::
        END_MARKER := by
  rw [joinLines_cons_ne _ _ (by simp), joinLines_cons_ne _ _ (by simp),
    joinLines_append ms [[], END_MARKER] hne (by simp),
    joinLines_cons_ne ([] : List Char) [END_MARKER] (by simp),
    joinLines, if_pos rfl]
  simp

/-! ## Claim theorems -/

/-- C7: `is_prerelease` on any string beginning with a numeric
`MAJOR.MINOR.PATCH` core (maximal digit runs `M`, `m`, `p`) returns a boolean
that is true iff a suffix follows the core — false exactly on bare cores. -/
theorem is_prerelease_spec (M m p rest : List Char)
    (hM : M ≠ []) (hMd : ∀ c ∈ M, c.isDigit = true)
    (hm : m ≠ []) (hmd : ∀ c ∈ m, c.isDigit = true)
    (hp : p ≠ []) (hpd : ∀ c ∈ p, c.isDigit = true)
    (hrest : ∀ c, rest.head? = some c → c.isDigit = false) :
    is_prerelease (M ++ ('.' :: (m ++ ('.' :: (p ++ rest))))) =
      some (decide (rest ≠ [])) := by
  have hdot : ('.').isDigit = false := by decide
  -- matchD on `p ++ rest` returns exactly `p`
  have hmatchD : matchD (p ++ rest) = some p := by
    have htake : (p ++ rest).takeWhile Char.isDigit = p := by
      cases rest with
      | nil => simpa using takeWhile_all Char.isDigit p hpd
      | cons c z =>
        exact takeWhile_append_stop Char.isDigit p c z hpd (hrest c rfl)
    simp [matchD, htake, List.isEmpty_iff, hp]
  -- matchAD on `. p rest`
  have hmatchAD : matchAD ('.' :: (p ++ rest)) = some ('.' :: p) := by
    simp [matchAD, hmatchD]
  -- matchDAD on `m . p rest`
  have hmatchDAD : matchDAD (m ++ ('.' :: (p ++ rest))) = some (m ++ ('.' :: p)) := by
    obtain ⟨j, hj⟩ : ∃ j, m.length = j + 1 := by
      cases m with
      | nil => exact absurd rfl hm
      | cons a t => exact ⟨t.length, rfl⟩
    have htw : (m ++ ('.' :: (p ++ rest))).takeWhile Char.isDigit = m :=
      takeWhile_append_stop Char.isDigit m '.' (p ++ rest) hmd hdot
    have hdrop : (m ++ ('.' :: (p ++ rest))).drop m.length = '.' :: (p ++ rest) :=
      List.drop_left m ('.' :: (p ++ rest))
    have htk : (m ++ ('.' :: (p ++ rest))).take m.length = m :=
      List.take_left m ('.' :: (p ++ rest))
    rw [matchDAD, htw, hj]
    rw [tryD_first _ _ j ('.' :: p) (by rw [← hj, hdrop]; exact hmatchAD)]
    rw [← hj, htk]
  -- matchADAD on `. m . p rest`
  have hmatchADAD :
      matchADAD ('.' :: (m ++ ('.' :: (p ++ rest)))) =
        some ('.' :: (m ++ ('.' :: p))) := by
    simp [matchADAD, hmatchDAD]
  -- the full core match
  have hcore : matchVersionCore (M ++ ('.' :: (m ++ ('.' :: (p ++ rest))))) =
      some (M ++ ('.' :: (m ++ ('.' :: p)))) := by
    obtain ⟨k, hk⟩ : ∃ k, M.length = k + 1 := by
      cases M with
      | nil => exact absurd rfl hM
      | cons a t => exact ⟨t.length, rfl⟩
    have htw : (M ++ ('.' :: (m ++ ('.' :: (p ++ rest))))).takeWhile Char.isDigit
        = M :=
      takeWhile_append_stop Char.isDigit M '.' (m ++ ('.' :: (p ++ rest))) hMd hdot
    have hdrop : (M ++ ('.' :: (m ++ ('.' :: (p ++ rest))))).drop M.length =
        '.' :: (m ++ ('.' :: (p ++ rest))) :=
      List.drop_left M ('.' :: (m ++ ('.' :: (p ++ rest))))
    have htk : (M ++ ('.' :: (m ++ ('.' :: (p ++ rest))))).take M.length = M :=
      List.take_left M ('.' :: (m ++ ('.' :: (p ++ rest))))
    rw [matchVersionCore, htw, hk]
    rw [tryD_first _ _ k ('.' :: (m ++ ('.' :: p)))
      (by rw [← hk, hdrop]; exact hmatchADAD)]
    rw [← hk, htk]
  rw [is_prerelease, hcore, Option.map_some']
  congr 1
  rw [decide_eq_decide]
  have hsplit : M ++ ('.' :: (m ++ ('.' :: (p ++ rest)))) =
      (M ++ ('.' :: (m ++ ('.' :: p)))) ++ rest := by
    simp
  rw [hsplit]
  constructor
  · intro hne hrest0
    subst hrest0
    simp at hne
  · intro hne heq
    apply hne
    have h2 : (M ++ ('.' :: (m ++ ('.' :: p)))) ++ rest =
        (M ++ ('.' :: (m ++ ('.' :: p)))) ++ [] := by
      simpa using heq.symm
    exact List.append_cancel_left h2

/-- Witness for C7 at concrete versions: `1.0.0rc1` is a prerelease and
`1.0.0` is not. -/
theorem is_prerelease_spec_witness :
    is_prerelease "1.0.0rc1".toList = some true ∧
      is_prerelease "1.0.0".toList = some false := by
  constructor
  · have h := is_prerelease_spec "1".toList "0".toList "0".toList "rc1".toList
      (by decide) (by decide) (by decide) (by decide) (by decide) (by decide)
      (by intro c hc; simp at hc; subst hc; decide)
    simpa using h
  · have h := is_prerelease_spec "1".toList "0".toList "0".toList []
      (by decide) (by decide) (by decide) (by decide) (by decide) (by decide)
      (by intro c hc; simp at hc)
    simpa using h

/-- C1 (counterexample exhibit): when the bumped version's tag already exists,
`prep_env` does fail fatally, but the version bump is performed *before* that
failure — the trace contains the bump event strictly before the failure
event, refuting "no version bump is attempted before that failure". -/
theorem prep_env_bump_precedes_tag_failure :
    prep_env "1.0.0".toList false (fun _ => true) ["v1.0.0".toList] =
      [PrepEvent.clearDist, PrepEvent.setupGit, PrepEvent.bump,
        PrepEvent.fail (tagExistsMsg "v1.0.0".toList)] ∧
      bumpBeforeFail
        (prep_env "1.0.0".toList false (fun _ => true) ["v1.0.0".toList]) := by
  have heq : prep_env "1.0.0".toList false (fun _ => true) ["v1.0.0".toList] =
      [PrepEvent.clearDist, PrepEvent.setupGit, PrepEvent.bump,
        PrepEvent.fail (tagExistsMsg "v1.0.0".toList)] := by
    rfl
  refine ⟨heq, 2, 3, by omega, ?_, tagExistsMsg "v1.0.0".toList, ?_⟩
  · rw [heq]; rfl
  · rw [heq]; rfl

/-- C1 (amended): whenever the canonicality guard passes and the tag for the
bumped version already exists, `prep_env` ends in the fatal tag-collision
failure, emits no outputs, and the version bump event precedes the failure. -/
theorem prep_env_tag_exists (bumpedVersion : List Char) (setupPyExists : Bool)
    (canonical : List Char → Bool) (tags : List (List Char))
    (hcanon : ¬ (setupPyExists = true ∧ ¬ canonical bumpedVersion = true))
    (htag : ('v' :: bumpedVersion) ∈ tags) :
    prep_env bumpedVersion setupPyExists canonical tags =
      [PrepEvent.clearDist, PrepEvent.setupGit, PrepEvent.bump,
        PrepEvent.fail (tagExistsMsg ('v' :: bumpedVersion))] ∧
      (∀ v, PrepEvent.emitOutputs v ∉
        prep_env bumpedVersion setupPyExists canonical tags) ∧
      bumpBeforeFail (prep_env bumpedVersion setupPyExists canonical tags) := by
  have heq : prep_env bumpedVersion setupPyExists canonical tags =
      [PrepEvent.clearDist, PrepEvent.setupGit, PrepEvent.bump,
        PrepEvent.fail (tagExistsMsg ('v' :: bumpedVersion))] := by
    simp only [prep_env]
    rw [if_neg hcanon, if_pos htag]
    rfl
  refine ⟨heq, ?_, 2, 3, by omega, ?_, tagExistsMsg ('v' :: bumpedVersion), ?_⟩
  · intro v
    rw [heq]
    simp
  · rw [heq]; rfl
  · rw [heq]; rfl

/-- Witness for C1's amended theorem at a concrete input. -/
theorem prep_env_tag_exists_witness :
    prep_env "2.0.0".toList true (fun _ => true) ["v2.0.0".toList] =
      [PrepEvent.clearDist, PrepEvent.setupGit, PrepEvent.bump,
        PrepEvent.fail (tagExistsMsg ('v' :: "2.0.0".toList))] ∧
      (∀ v, PrepEvent.emitOutputs v ∉
        prep_env "2.0.0".toList true (fun _ => true) ["v2.0.0".toList]) ∧
      bumpBeforeFail
        (prep_env "2.0.0".toList true (fun _ => true) ["v2.0.0".toList]) :=
  prep_env_tag_exists "2.0.0".toList true (fun _ => true) ["v2.0.0".toList]
    (by simp) (by simp)

set_option maxRecDepth 20000 in
/-- C9: `compute_sha256` equals the single-pass digest of the whole file (the
`BUF_SIZE`-chunked streaming introduces no discrepancy), is deterministic,
always yields a 64-character string over the lowercase hex alphabet, and a
single-byte mutation of a concrete file changes the digest. -/
theorem compute_sha256_spec (bytes : List Nat) :
    compute_sha256 bytes = toHexStr (sha256bytes bytes) ∧
      (compute_sha256 bytes).length = 64 ∧
      (∀ c ∈ compute_sha256 bytes, c ∈ hexChars) ∧
      compute_sha256 bytes = compute_sha256 bytes ∧
      compute_sha256 [97] ≠ compute_sha256 [98] := by
  have hsingle : compute_sha256 bytes = toHexStr (sha256bytes bytes) := by
    unfold compute_sha256 readChunks
    rw [readChunksAux_foldl 65536 (by omega) bytes.length bytes [] (le_refl _)]
    rfl
  refine ⟨hsingle, ?_, ?_, rfl, ?_⟩
  · rw [hsingle, toHexStr_length, sha256bytes_length]
  · intro c hc
    rw [hsingle] at hc
    exact mem_toHexStr _ c hc
  · decide

set_option maxRecDepth 40000 in
/-- C10: checksum verification accepts an asset iff some commit-message line
contains both the asset's name and the recomputed digest as substrings.  In
particular a line that carries the name with a wrong digest does not fail the
asset when an accepting line exists elsewhere (`tolerantMsg`), and substring
matching lets an asset named `b.tgz` validate against the line of the
differently named `dist/ab.tgz` (`crossNameMsg`). -/
theorem extract_release_accepts_iff_line_match :
    (∀ msg name sha, asset_checksum_valid msg name sha = true ↔
      ∃ line ∈ splitlines msg, name <:+: line ∧ sha <:+: line) ∧
      extract_release_verify tolerantMsg [("b.tgz".toList, [98])] =
        Except.ok () ∧
      (∃ line ∈ splitlines tolerantMsg, "b.tgz".toList <:+: line ∧
        ¬ compute_sha256 [98] <:+: line) ∧
      extract_release_verify crossNameMsg [("b.tgz".toList, [97])] =
        Except.ok () := by
  refine ⟨asset_checksum_valid_iff, by rfl, ?_, by rfl⟩
  exact ⟨"dist/b.tgz: ffff".toList, by decide, by decide, by decide⟩

set_option maxRecDepth 40000 in
/-- C4 (counterexample): the commit message `staleLineMsg` has a line that
contains the asset's name `a.whl` while the recomputed digest does not appear
in that line, yet verification succeeds (no `MismatchError` is raised),
because another line carries the digest — refuting the claim's per-line
mismatch clause. -/
theorem extract_release_mismatch_clause_cex :
    extract_release_verify staleLineMsg [("a.whl".toList, [97])] =
      Except.ok () ∧
      ∃ line ∈ splitlines staleLineMsg, "a.whl".toList <:+: line ∧
        ¬ compute_sha256 [97] <:+: line := by
  refine ⟨by rfl, "dist/a.whl: 0bad".toList, by decide, by decide, by decide⟩

/-- C4 (amended): verification succeeds whenever every downloaded asset's
bytes are identical to those hashed at tag time (its digest line from the
release commit still matches); and whenever no commit-message line contains
both the asset's name and its recomputed digest — covering both the
digest-mismatch case and the missing-checksum-line case — verification fails
with the single fatal error `Invalid file {name}` (the source raises the same
`ValueError` for both; there is no distinct missing-checksum error). -/
theorem extract_release_verify_spec :
    (∀ (version : List Char) (files assets : List (List Char × List Nat)),
      '\n' ∉ version →
      (∀ pa ∈ files, '\n' ∉ pa.1) →
      (∀ a ∈ assets, ∃ pa ∈ files, pa.2 = a.2 ∧ a.1 <:+: pa.1) →
      extract_release_verify (create_release_commit_message version files)
        assets = Except.ok ()) ∧
    (∀ (msg name : List Char) (bytes : List Nat)
        (rest : List (List Char × List Nat)),
      (¬ ∃ line ∈ splitlines msg, name <:+: line ∧
        compute_sha256 bytes <:+: line) →
      extract_release_verify msg ((name, bytes) :: rest) =
        Except.error ("Invalid file ".toList ++ name)) := by
  constructor
  · intro version files assets hver hpaths hassets
    have hParas : ∀ r ∈ ("Publish ".toList ++ version) ::
        "SHA256 hashes:".toList ::
        files.map (fun f => f.1 ++ ": ".toList ++ compute_sha256 f.2),
        '\n' ∉ r ∧ r ≠ [] := by
      intro r hr
      rcases List.mem_cons.mp hr with hr1 | hr1
      · subst hr1
        constructor
        · intro hmem
          rcases List.mem_append.mp hmem with h | h
          · exact absurd h (by decide)
          · exact hver h
        · simp
      rcases List.mem_cons.mp hr1 with hr2 | hr2
      · subst hr2
        exact ⟨by decide, by decide⟩
      · rcases List.mem_map.mp hr2 with ⟨pa, hpa, hr3⟩
        subst hr3
        constructor
        · intro hmem
          rcases List.mem_append.mp hmem with h | h
          · rcases List.mem_append.mp h with h1 | h1
            · exact hpaths pa hpa h1
            · exact absurd h1 (by decide)
          · exact compute_sha256_no_newline pa.2 h
        · simp
    induction assets with
    | nil => rfl
    | cons a rest ih =>
      obtain ⟨pa, hpamem, hbytes, hinf⟩ := hassets a (List.mem_cons_self a rest)
      have hline : (pa.1 ++ ": ".toList ++ compute_sha256 pa.2) ∈
          splitlines (create_release_commit_message version files) := by
        apply mem_splitlines_joinParas _ hParas
        exact List.mem_cons_of_mem _ (List.mem_cons_of_mem _
          (List.mem_map.mpr ⟨pa, hpamem, rfl⟩))
      have hvalid : asset_checksum_valid
          (create_release_commit_message version files) a.1
          (compute_sha256 a.2) = true := by
        rw [asset_checksum_valid_iff]
        refine ⟨pa.1 ++ ": ".toList ++ compute_sha256 pa.2, hline, ?_, ?_⟩
        · exact hinf.trans ⟨[], ": ".toList ++ compute_sha256 pa.2, by simp⟩
        · rw [hbytes]
          exact ⟨pa.1 ++ ": ".toList, [], by simp⟩
      have hrest : ∀ b ∈ rest, ∃ pa ∈ files, pa.2 = b.2 ∧ b.1 <:+: pa.1 :=
        fun b hb => hassets b (List.mem_cons_of_mem a hb)
      cases a with
      | mk aname abytes =>
        rw [extract_release_verify, if_pos hvalid]
        exact ih hrest
  · intro msg name bytes rest hno
    rw [extract_release_verify]
    rw [if_neg]
    intro hvalid
    exact hno ((asset_checksum_valid_iff msg name (compute_sha256 bytes)).mp
      hvalid)

set_option maxRecDepth 40000 in
/-- Witness for C4's amended theorem at concrete inputs: a byte-identical
download verifies, and a message with no matching line yields the single
`Invalid file` error. -/
theorem extract_release_verify_spec_witness :
    extract_release_verify
        (create_release_commit_message "1.0.0".toList
          [("dist/pkg.tar.gz".toList, [10, 20])])
        [("pkg.tar.gz".toList, [10, 20])] = Except.ok () ∧
      extract_release_verify "no hashes here".toList
          [("pkg.tar.gz".toList, [10, 20])] =
        Except.error ("Invalid file ".toList ++ "pkg.tar.gz".toList) := by
  constructor
  · exact extract_release_verify_spec.1 "1.0.0".toList
      [("dist/pkg.tar.gz".toList, [10, 20])] [("pkg.tar.gz".toList, [10, 20])]
      (by decide) (by decide) (by decide)
  · exact extract_release_verify_spec.2 "no hashes here".toList
      "pkg.tar.gz".toList [10, 20] [] (by decide)

/-- C8: when the output directory holds no asset of a recognized package type
(no `.gz`, `.whl` or `.tgz` file), `publish_release` fails with the fatal
"No assets published" error, performs no publisher invocation, and never
executes the finalize (un-draft) call, leaving the host release unchanged. -/
theorem publish_release_no_assets (files : List (List Char))
    (h : ∀ f ∈ files, pySuffix f ≠ ".gz".toList ∧ pySuffix f ≠ ".whl".toList ∧
      pySuffix f ≠ ".tgz".toList) :
    publish_release files = ([], some noAssetsMsg) ∧
      PublishAction.finalize ∉ (publish_release files).1 := by
  have hfold := publish_fold_unrecognized files h []
  have heq : publish_release files = ([], some noAssetsMsg) := by
    simp only [publish_release, hfold]
    rfl
  exact ⟨heq, by rw [heq]; simp⟩

/-- Witness for C8 at a concrete input: a dist directory containing only a
`.txt` file. -/
theorem publish_release_no_assets_witness :
    publish_release ["dist/notes.txt".toList] =
      ([], some noAssetsMsg) ∧
      PublishAction.finalize ∉ (publish_release ["dist/notes.txt".toList]).1 :=
  publish_release_no_assets ["dist/notes.txt".toList] (by decide)

/-- C6 (code bug exhibit): the pruning step of `draft_release` does not delete
a draft release created two days in the past (the code computes
`created - now` instead of `now - created`), and it does delete a published
(non-draft) release whose creation date lies two days in the future (the
`draft == "false"` guard compares a boolean against a string and never
fires). -/
theorem draft_release_prune_bug :
    draft_release_prune
        [⟨1, JVal.b true, 1000000 - 172800⟩] 1000000 = [] ∧
      draft_release_prune
        [⟨2, JVal.b false, 1000000 + 172800⟩] 1000000 = [2] := by
  constructor <;> rfl

/-- C5 (counterexample): a document with the END marker duplicated and an END
marker *before* the START marker passes `prep_changelog` validation — only
presence of both markers and uniqueness of START are checked. -/
theorem prep_changelog_validate_cex :
    prep_changelog_validate
        (END_MARKER ++ '\n' :: START_MARKER ++ '\n' :: END_MARKER) =
      Except.ok () ∧
      countSub (END_MARKER ++ '\n' :: START_MARKER ++ '\n' :: END_MARKER)
        END_MARKER = 2 ∧
      pyFind (END_MARKER ++ '\n' :: START_MARKER ++ '\n' :: END_MARKER)
        END_MARKER = some 0 ∧
      pyFind (END_MARKER ++ '\n' :: START_MARKER ++ '\n' :: END_MARKER)
        START_MARKER = some 35 := by
  refine ⟨by rfl, by decide, by decide, by decide⟩

/-- C5 (amended): `prep_changelog` marker validation succeeds iff both markers
are present and the START marker occurs exactly once; the END marker's
multiplicity and the marker order are not checked. -/
theorem prep_changelog_validate_iff (changelog : List Char) :
    prep_changelog_validate changelog = Except.ok () ↔
      START_MARKER <:+: changelog ∧ END_MARKER <:+: changelog ∧
        countSub changelog START_MARKER = 1 := by
  unfold prep_changelog_validate
  by_cases h1 : ¬ (START_MARKER <:+: changelog) ∨ ¬ (END_MARKER <:+: changelog)
  · rw [if_pos h1]
    constructor
    · intro h; cases h
    · rintro ⟨hS, hE, _⟩
      rcases h1 with h | h
      · exact absurd hS h
      · exact absurd hE h
  · rw [if_neg h1]
    push_neg at h1
    obtain ⟨hS, hE⟩ := h1
    by_cases h2 : pyFind changelog START_MARKER = pyRFind changelog START_MARKER
    · rw [if_neg (by simpa using h2)]
      have hcount : countSub changelog START_MARKER = 1 := by
        have hne : occSet changelog START_MARKER ≠ [] :=
          (infix_iff_occSet changelog START_MARKER).mp hS
        obtain ⟨a, ha⟩ := head_eq_getLast_singleton
          (occSet_nodup changelog START_MARKER) hne h2
        rw [countSub, ha]
        rfl
      simp [hS, hE, hcount]
    · rw [if_pos (by simpa using h2)]
      constructor
      · intro h; cases h
      · rintro ⟨-, -, hcount⟩
        exfalso
        apply h2
        rw [countSub] at hcount
        obtain ⟨a, ha⟩ := List.length_eq_one.mp hcount
        rw [pyFind, pyRFind, ha]
        rfl

set_option maxRecDepth 20000 in
/-- **C3** (amended): for a canonical well-formed changelog document — each
marker on a line of its own, a newline after the END marker, the region and
the entry lines marker-free — both branches of `insertOrMergeEntry` yield a
document with exactly one START marker and exactly one END marker, and the
new entry (verbatim in the insert branch, line-merged against the old region
in the merge branch) sits between them.  The unamended claim, quantifying
over all documents with exactly one marker pair, fails: see the
counterexample, where the END marker lacks a trailing newline. -/
theorem prep_changelog_marker_invariant (A B C version : List Char)
    (es bs : List (List Char))
    (huS : ∀ X Y, A ++ START_MARKER ++ '\n' :: B ++ '\n' :: END_MARKER ++
      '\n' :: C = X ++ START_MARKER ++ Y → X = A)
    (huE : ∀ X Y, A ++ START_MARKER ++ '\n' :: B ++ '\n' :: END_MARKER ++
      '\n' :: C = X ++ END_MARKER ++ Y →
      X = A ++ START_MARKER ++ '\n' :: B ++ ['\n'])
    (hB : B = joinLines bs) (hbsne : bs ≠ []) (hesne : es ≠ [])
    (hbs : ∀ b ∈ bs, '\n' ∉ b)
    (hes : ∀ e ∈ es, '\n' ∉ e ∧ ¬ START_MARKER <:+: e ∧
      ¬ END_MARKER <:+: e) :
    ∃ mid tail,
      prep_changelog_update
          (A ++ START_MARKER ++ '\n' :: B ++ '\n' :: END_MARKER ++ '\n' :: C)
          (joinLines es) version =
        A ++ START_MARKER ++ '\n' :: '\n' :: mid ++ '\n' :: '\n' ::
          END_MARKER ++ '\n' :: tail ∧
      (mid = joinLines es ∨
        mid = joinLines (es.map
          (mergeLine (START_MARKER :: bs ++ [END_MARKER])))) ∧
      wellFormedDoc (A ++ START_MARKER ++ '\n' :: '\n' :: mid ++ '\n' ::
        '\n' :: END_MARKER ++ '\n' :: tail) ∧
      countSub (A ++ START_MARKER ++ '\n' :: '\n' :: mid ++ '\n' :: '\n' ::
        END_MARKER ++ '\n' :: tail) START_MARKER = 1 ∧
      countSub (A ++ START_MARKER ++ '\n' :: '\n' :: mid ++ '\n' :: '\n' ::
        END_MARKER ++ '\n' :: tail) END_MARKER = 1 := by
  have hSnl : '\n' ∉ START_MARKER := by decide
  have hSne : START_MARKER ≠ [] := by decide
  have hEnl : '\n' ∉ END_MARKER := by decide
  have hEne : END_MARKER ≠ [] := by decide
  have hAS := ctx_AS A B C huS
  have hnSB := ctx_noSB A B C huS
  have hnSC := ctx_noSC A B C huS
  have hnEB := ctx_noEB A B C huE
  have hnEC := ctx_noEC A B C huE
  have hnEAS := ctx_noEAS A B C huE
  by_cases hcond : ('#' :: ' ' :: version) <:+:
      (START_MARKER ++ '\n' :: B ++ '\n' :: END_MARKER)
  · have heq := prep_changelog_merge_eq A B C (joinLines es) version huS huE
      hcond
    have hsplPrev : splitlines (START_MARKER ++ '\n' :: B ++ '\n' ::
        END_MARKER) = START_MARKER :: bs ++ [END_MARKER] := by
      rw [hB]
      exact splitlines_PREV bs hbs hbsne
    have hsplNew : splitlines (START_MARKER ++ '\n' :: '\n' ::
        (joinLines es ++ '\n' :: '\n' :: END_MARKER)) =
        START_MARKER :: [] :: (es ++ [[], END_MARKER]) :=
      splitlines_newE es (fun e he => (hes e he).1) hesne
    have hmap := map_mergeLine_newE (START_MARKER :: bs ++ [END_MARKER]) es
    have hms : es.map (mergeLine (START_MARKER :: bs ++ [END_MARKER])) ≠ []
        := by
      intro h
      exact hesne (List.map_eq_nil_iff.mp h)
    have hjm := joinLines_mergedE
      (es.map (mergeLine (START_MARKER :: bs ++ [END_MARKER]))) hms
    refine ⟨joinLines (es.map
      (mergeLine (START_MARKER :: bs ++ [END_MARKER]))), C, ?_,
      Or.inr rfl, ?_⟩
    · rw [heq, hsplPrev, hsplNew, hmap, hjm]
      simp
    · have hnSB2 : ¬ START_MARKER <:+: joinLines bs := hB ▸ hnSB
      have hnEB2 : ¬ END_MARKER <:+: joinLines bs := hB ▸ hnEB
      have hbS : ∀ b ∈ bs, ¬ START_MARKER <:+: b := fun b hb hS =>
        hnSB2 (hS.trans (mem_infix_joinLines b bs hb))
      have hbE : ∀ b ∈ bs, ¬ END_MARKER <:+: b := fun b hb hE =>
        hnEB2 (hE.trans (mem_infix_joinLines b bs hb))
      have hmidS : ¬ START_MARKER <:+: joinLines (es.map
          (mergeLine (START_MARKER :: bs ++ [END_MARKER]))) := by
        apply not_infix_joinLines _ hSnl hSne
        intro m hm
        obtain ⟨e, he, hme⟩ := List.mem_map.mp hm
        exact hme ▸ (mergeLine_marker_free bs e hbS hbE (hes e he).2.1
          (hes e he).2.2).1
      have hmidE : ¬ END_MARKER <:+: joinLines (es.map
          (mergeLine (START_MARKER :: bs ++ [END_MARKER]))) := by
        apply not_infix_joinLines _ hEnl hEne
        intro m hm
        obtain ⟨e, he, hme⟩ := List.mem_map.mp hm
        exact hme ▸ (mergeLine_marker_free bs e hbS hbE (hes e he).2.1
          (hes e he).2.2).2
      exact result_doc_wf A _ C hAS hnEAS hmidS hmidE hnSC hnEC
  · obtain ⟨Ct, hCt, heq⟩ := prep_changelog_insert_eq A B C (joinLines es)
      version huS huE hcond
    have hnSCt : ¬ START_MARKER <:+: Ct := by
      rcases hCt with h1 | h1
      · exact h1 ▸ hnSC
      · intro h
        exact hnSC (h1.symm ▸ infix_cons_of _ _ '\n' h)
    have hnECt : ¬ END_MARKER <:+: Ct := by
      rcases hCt with h1 | h1
      · exact h1 ▸ hnEC
      · intro h
        exact hnEC (h1.symm ▸ infix_cons_of _ _ '\n' h)
    have hnStail : ¬ START_MARKER <:+: (B ++ '\n' :: Ct) := by
      intro h
      rcases infix_newline_split _ hSnl hSne B Ct h with h1 | h1
      · exact hnSB h1
      · exact hnSCt h1
    have hnEtail : ¬ END_MARKER <:+: (B ++ '\n' :: Ct) := by
      intro h
      rcases infix_newline_split _ hEnl hEne B Ct h with h1 | h1
      · exact hnEB h1
      · exact hnECt h1
    refine ⟨joinLines es, B ++ '\n' :: Ct, ?_, Or.inl rfl, ?_⟩
    · rw [heq]
      simp
    · have hmidS : ¬ START_MARKER <:+: joinLines es :=
        not_infix_joinLines _ hSnl hSne es (fun e he => (hes e he).2.1)
      have hmidE : ¬ END_MARKER <:+: joinLines es :=
        not_infix_joinLines _ hEnl hEne es (fun e he => (hes e he).2.2)
      exact result_doc_wf A (joinLines es) (B ++ '\n' :: Ct) hAS hnEAS hmidS
        hmidE hnStail hnEtail

set_option maxRecDepth 40000 in
/-- **C3 counterexample**: a document with exactly one START marker and
exactly one END marker (each marker count computed to be 1) whose END marker
is not followed by a newline.  The insert branch leaves the old END marker
in place — neither `END_MARKER + "\n\n"` nor `END_MARKER + "\n"` occurs, so
neither removal fires — and then inserts a block carrying a second END
marker: the result has two END markers, refuting the unamended marker-count
invariant. -/
theorem prep_changelog_marker_cex :
    countSub (START_MARKER ++ '\n' :: '\n' :: END_MARKER) START_MARKER = 1 ∧
    countSub (START_MARKER ++ '\n' :: '\n' :: END_MARKER) END_MARKER = 1 ∧
    countSub (prep_changelog_update
      (START_MARKER ++ '\n' :: '\n' :: END_MARKER)
      "## 1.0.0".toList "1.0.0".toList) END_MARKER = 2 := by
  refine ⟨by decide, by decide, by decide⟩

set_option maxRecDepth 40000 in
/-- Witness for C3: the amended invariant applied to the concrete canonical
document `START\n\nEND\n` with a one-line entry, all hypotheses discharged
by computation. -/
theorem prep_changelog_marker_invariant_witness :
    ∃ mid tail,
      prep_changelog_update
          ([] ++ START_MARKER ++ '\n' :: [] ++ '\n' :: END_MARKER ++
            '\n' :: []) (joinLines [['x']]) ['9'] =
        [] ++ START_MARKER ++ '\n' :: '\n' :: mid ++ '\n' :: '\n' ::
          END_MARKER ++ '\n' :: tail ∧
      (mid = joinLines [['x']] ∨
        mid = joinLines ([['x']].map
          (mergeLine (START_MARKER :: [[]] ++ [END_MARKER])))) ∧
      wellFormedDoc ([] ++ START_MARKER ++ '\n' :: '\n' :: mid ++ '\n' ::
        '\n' :: END_MARKER ++ '\n' :: tail) ∧
      countSub ([] ++ START_MARKER ++ '\n' :: '\n' :: mid ++ '\n' :: '\n' ::
        END_MARKER ++ '\n' :: tail) START_MARKER = 1 ∧
      countSub ([] ++ START_MARKER ++ '\n' :: '\n' :: mid ++ '\n' :: '\n' ::
        END_MARKER ++ '\n' :: tail) END_MARKER = 1 :=
  prep_changelog_marker_invariant [] [] [] ['9'] [['x']] [[]]
    (fun X Y h => unique_of_occSet _ _ 0 (by decide) X Y h)
    (fun X Y h => unique_of_occSet _ _ 38 (by decide) X Y h)
    rfl (by decide) (by decide) (by decide) (by decide)

set_option maxRecDepth 60000 in
/-- **C2**: the merge keeps the old line verbatim whenever an old region
line carries the new line's PR reference (uniquely), keeps the new line when
no old line carries it, and keeps reference-free lines; consequently, in the
concrete two-run scenario — insert, hand-edit `- B [#2]` to
`- B renamed [#2]`, re-run with the same version — the hand-edited line
survives the second run verbatim and the superseded generated line is
gone, while the untouched line `- A [#1]` also survives. -/
theorem prep_changelog_merge_old_wins :
    (∀ (old : List (List Char)) (line r ol : List Char),
        firstPRRef line = some r → ol ∈ old → r <:+: ol →
        (∀ o ∈ old, r <:+: o → o = ol) → mergeLine old line = ol) ∧
    (∀ (old : List (List Char)) (line r : List Char),
        firstPRRef line = some r → (∀ o ∈ old, ¬ r <:+: o) →
        mergeLine old line = line) ∧
    (∀ (old : List (List Char)) (line : List Char),
        firstPRRef line = none → mergeLine old line = line) ∧
    "- B renamed [#2]".toList ∈ splitlines twoRunDoc2 ∧
    "- B [#2]".toList ∉ splitlines twoRunDoc2 ∧
    "- A [#1]".toList ∈ splitlines twoRunDoc2 :=
  ⟨mergeLine_unique, mergeLine_keep, mergeLine_no_ref,
    by decide, by decide, by decide⟩

/-- Witness for C2: the old-line-wins clause applied at a concrete merge —
the hand-edited old line replaces the regenerated line. -/
theorem prep_changelog_merge_old_wins_witness :
    mergeLine ["- B renamed [#2]".toList] "- B [#2]".toList =
      "- B renamed [#2]".toList :=
  prep_changelog_merge_old_wins.1 ["- B renamed [#2]".toList]
    "- B [#2]".toList "[#2]".toList "- B renamed [#2]".toList
    (by decide) (by decide) (by decide) (by decide)

end ReleaseHelper
